/-
  Formal model of the SiteCrawl pipeline graph subsystem: the DAG builder
  (src/main/pipeline/dag.ts), the graph algorithms, the structural validator
  (src/main/pipeline/validator.ts), the mutation guard, and the workflow
  manager (src/main/pipeline/manager.ts), shallowly embedded in Lean.

  Modelling conventions:
  * TypeScript objects become structures; `undefined`-able fields become
    `Option`; machine timestamps become `Nat`.
  * The JS `Map<string, DAGNode>` becomes an insertion-ordered association
    list with JS `Map.set` semantics (overwriting keeps the original slot).
  * `DAGNode.children` / `DAGNode.parents` hold object references in the
    source; since the node map holds exactly one live node per name and all
    edge linking resolves through the map, references are modelled by names.
  * Functions that can throw (`DAG.fromPipeline` via `JSON.parse`) return
    `Except String`.
  * Unbounded loops/recursion are modelled with an explicit fuel argument;
    the fuel constants used by the wrappers are upper bounds on the number
    of iterations the corresponding JS loop can perform.
-/
import Mathlib

namespace SiteCrawl

/-- JSON values, as produced by the `JSON.parse` builtin. The numeric lexeme
is kept as a string: the pipeline subsystem never consumes parsed configs,
so only parse success/failure is observable. -/
inductive Json where
  | null : Json
  | bool (b : Bool) : Json
  | num (lexeme : String) : Json
  | str (s : String) : Json
  | arr (elems : List Json) : Json
  | obj (fields : List (String × Json)) : Json
deriving Repr, Inhabited

/-- JSON whitespace characters. -/
def isJsonWs (c : Char) : Bool :=
  c == ' ' || c == '\t' || c == '\n' || c == '\r'

/-- Drop leading JSON whitespace. -/
def skipWs : List Char → List Char
  | [] => []
  | c :: cs => if isJsonWs c then skipWs cs else c :: cs

/-- Split a leading run of decimal digits. -/
def takeDigits : List Char → List Char × List Char
  | [] => ([], [])
  | c :: cs =>
    if c.isDigit then
      let (d, r) := takeDigits cs
      (c :: d, r)
    else ([], c :: cs)

/-- Hexadecimal digit test, for `\uXXXX` escapes. -/
def isHexDig (c : Char) : Bool :=
  c.isDigit || ('a' ≤ c && c ≤ 'f') || ('A' ≤ c && c ≤ 'F')

/-- The character `\x7b` (left curly brace). -/
def lbrace : Char := Char.ofNat 123

/-- The character `\x7d` (right curly brace). -/
def rbrace : Char := Char.ofNat 125

/-- Check that `lit` is a literal prefix of the input and return the rest. -/
def expectLit : List Char → List Char → Option (List Char)
  | [], cs => some cs
  | _, [] => none
  | l :: ls, c :: cs => if l == c then expectLit ls cs else none

/-- Parse the integer-and-fraction-and-exponent part of a JSON number,
starting after an optional leading minus sign. Returns the remaining
input on success. -/
def parseNumTail (cs : List Char) : Option (List Char) :=
  match cs with
  | [] => none
  | c :: rest =>
    if c == '0' then
      some rest
    else if c.isDigit then
      some (takeDigits rest).2
    else none

/-- Parse the optional fraction part of a JSON number. -/
def parseFrac (cs : List Char) : Option (List Char) :=
  match cs with
  | '.' :: rest =>
    let (d, r) := takeDigits rest
    if d.isEmpty then none else some r
  | _ => some cs

/-- Parse the optional exponent part of a JSON number. -/
def parseExp (cs : List Char) : Option (List Char) :=
  match cs with
  | c :: rest =>
    if c == 'e' || c == 'E' then
      let rest2 := match rest with
        | s :: r2 => if s == '+' || s == '-' then r2 else s :: r2
        | [] => []
      let (d, r) := takeDigits rest2
      if d.isEmpty then none else some r
    else some (c :: rest)
  | [] => some []

/-- Parse a JSON number (after the grammar of `JSON.parse`); returns the
consumed lexeme and the rest of the input. -/
def parseNum (cs : List Char) : Except String (String × List Char) :=
  let (neg, body) := match cs with
    | '-' :: rest => (true, rest)
    | _ => (false, cs)
  match parseNumTail body with
  | none => .error "Unexpected token in JSON number"
  | some afterInt =>
    match parseFrac afterInt with
    | none => .error "Bad fraction in JSON number"
    | some afterFrac =>
      match parseExp afterFrac with
      | none => .error "Bad exponent in JSON number"
      | some afterExp =>
        let used := cs.length - afterExp.length
        let lexeme := String.mk (cs.take used)
        let _ := neg
        .ok (lexeme, afterExp)

/-- Parse the body of a JSON string, positioned after the opening quote.
Escape sequences are validated as `JSON.parse` does; the decoded value is
irrelevant to this subsystem, so escapes are kept verbatim. -/
def parseStringBody : Nat → List Char → Except String (String × List Char)
  | 0, _ => .error "JSON string too deep"
  | _ + 1, [] => .error "Unterminated string in JSON"
  | f + 1, c :: cs =>
    if c == '"' then .ok ("", cs)
    else if c == '\\' then
      match cs with
      | [] => .error "Bad escape in JSON"
      | e :: cs2 =>
        if e == '"' || e == '\\' || e == '/' || e == 'b' || e == 'f' ||
           e == 'n' || e == 'r' || e == 't' then
          match parseStringBody f cs2 with
          | .ok (s, r) => .ok (String.mk [c, e] ++ s, r)
          | .error m => .error m
        else if e == 'u' then
          match cs2 with
          | h1 :: h2 :: h3 :: h4 :: cs3 =>
            if isHexDig h1 && isHexDig h2 && isHexDig h3 && isHexDig h4 then
              match parseStringBody f cs3 with
              | .ok (s, r) => .ok (String.mk [c, e, h1, h2, h3, h4] ++ s, r)
              | .error m => .error m
            else .error "Bad unicode escape in JSON"
          | _ => .error "Bad unicode escape in JSON"
        else .error "Bad escape in JSON"
    else if c.toNat < 32 then .error "Control character in JSON string"
    else
      match parseStringBody f cs with
      | .ok (s, r) => .ok (String.singleton c ++ s, r)
      | .error m => .error m

mutual

/-- Parse one JSON value (the recursive core of `JSON.parse`). -/
def parseVal : Nat → List Char → Except String (Json × List Char)
  | 0, _ => .error "JSON value too deep"
  | f + 1, cs =>
    match skipWs cs with
    | [] => .error "Unexpected end of JSON input"
    | c :: rest =>
      if c == 'n' then
        match expectLit ['u', 'l', 'l'] rest with
        | some r => .ok (.null, r)
        | none => .error "Unexpected token in JSON"
      else if c == 't' then
        match expectLit ['r', 'u', 'e'] rest with
        | some r => .ok (.bool true, r)
        | none => .error "Unexpected token in JSON"
      else if c == 'f' then
        match expectLit ['a', 'l', 's', 'e'] rest with
        | some r => .ok (.bool false, r)
        | none => .error "Unexpected token in JSON"
      else if c == '"' then
        match parseStringBody (rest.length + 1) rest with
        | .ok (s, r) => .ok (.str s, r)
        | .error m => .error m
      else if c == '[' then
        match skipWs rest with
        | ']' :: r2 => .ok (.arr [], r2)
        | other => parseArrElems f other []
      else if c == lbrace then
        match skipWs rest with
        | b :: r2 =>
          if b == rbrace then .ok (.obj [], r2)
          else parseObjFields f (b :: r2) []
        | [] => .error "Unexpected end of JSON input"
      else if c == '-' || c.isDigit then
        match parseNum (c :: rest) with
        | .ok (lex, r) => .ok (.num lex, r)
        | .error m => .error m
      else .error "Unexpected token in JSON"

/-- Parse the comma-separated elements of a JSON array (after `[`). -/
def parseArrElems : Nat → List Char → List Json → Except String (Json × List Char)
  | 0, _, _ => .error "JSON value too deep"
  | f + 1, cs, acc =>
    match parseVal f cs with
    | .error m => .error m
    | .ok (v, r) =>
      match skipWs r with
      | ',' :: r2 => parseArrElems f r2 (acc ++ [v])
      | ']' :: r2 => .ok (.arr (acc ++ [v]), r2)
      | _ => .error "Expected comma or bracket in JSON array"

/-- Parse the comma-separated fields of a JSON object (after `\x7b`). -/
def parseObjFields : Nat → List Char → List (String × Json) → Except String (Json × List Char)
  | 0, _, _ => .error "JSON value too deep"
  | f + 1, cs, acc =>
    match skipWs cs with
    | '"' :: r =>
      match parseStringBody (r.length + 1) r with
      | .error m => .error m
      | .ok (k, r2) =>
        match skipWs r2 with
        | ':' :: r3 =>
          match parseVal f r3 with
          | .error m => .error m
          | .ok (v, r4) =>
            match skipWs r4 with
            | ',' :: r5 => parseObjFields f r5 (acc ++ [(k, v)])
            | b :: r5 =>
              if b == rbrace then .ok (.obj (acc ++ [(k, v)]), r5)
              else .error "Expected comma or brace in JSON object"
            | [] => .error "Unexpected end of JSON input"
        | _ => .error "Expected colon in JSON object"
    | _ => .error "Expected string key in JSON object"

end

/-- Model of the `JSON.parse` builtin: parse a complete JSON document,
rejecting trailing non-whitespace. -/
def jsonParse (s : String) : Except String Json :=
  match parseVal (s.length + 2) s.toList with
  | .error m => .error m
  | .ok (v, rest) =>
    match skipWs rest with
    | [] => .ok v
    | _ => .error "Unexpected non-whitespace after JSON value"

/-! ## Data model (src/main/pipeline/types.ts) -/

/-- `PipelineTask`: flat persisted task record. `config` is an optional JSON
string. -/
structure PipelineTask where
  taskId : String
  name : String
  trigger : String
  config : Option String
deriving Repr, DecidableEq, Inhabited

/-- `Pipeline`: a stored workflow definition. -/
structure Pipeline where
  id : String
  name : String
  description : Option String
  tasks : List PipelineTask
  createdAt : Nat
  updatedAt : Nat
deriving Repr, DecidableEq

/-- `ValidationResult`: the shape shared by `validate` and the mutation-guard
checks. -/
structure ValidationResult where
  valid : Bool
  errors : List String
  warnings : List String
deriving Repr, DecidableEq

/-- `DAGNode`: derived graph node. `children`/`parents` are JS object
references in the source, modelled by node names (one live node per name in
the map). -/
structure DAGNode where
  name : String
  taskId : String
  trigger : String
  config : Option Json
  children : List String
  parents : List String
deriving Repr, Inhabited

/-- The reserved entry-point trigger sentinel `"_run_"`. -/
def rootTrigger : String := "_run_"

/-- Model of the JS falsy test `!s \x7c\x7c s.trim() === ''` on a string:
all characters are whitespace (in particular the empty string). -/
def isBlank (s : String) : Bool := s.toList.all (fun c => c.isWhitespace)

/-! ## Association map with JS `Map` semantics -/

/-- JS `Map.get`: first (and only) binding of a key. -/
def mapGet (m : List (String × DAGNode)) (k : String) : Option DAGNode :=
  match m with
  | [] => none
  | (k2, v) :: rest => if k2 == k then some v else mapGet rest k

/-- JS `Map.set`: overwrite in place if the key exists (keeping its
insertion slot), otherwise append. -/
def mapSet (m : List (String × DAGNode)) (k : String) (v : DAGNode) :
    List (String × DAGNode) :=
  match m with
  | [] => [(k, v)]
  | (k2, v2) :: rest =>
    if k2 == k then (k2, v) :: rest else (k2, v2) :: mapSet rest k v

/-- Update the value bound to `k`, if present. -/
def mapUpdate (m : List (String × DAGNode)) (k : String)
    (f : DAGNode → DAGNode) : List (String × DAGNode) :=
  match m with
  | [] => []
  | (k2, v) :: rest =>
    if k2 == k then (k2, f v) :: rest else (k2, v) :: mapUpdate rest k f

/-- Keys of a node map, in insertion order. -/
def mapKeys (m : List (String × DAGNode)) : List String :=
  m.map (fun kv => kv.1)

/-! ## DAG (src/main/pipeline/dag.ts) -/

/-- The `DAG` class state: the node map and the root reference (by name). -/
structure DAG where
  nodes : List (String × DAGNode)
  root : Option String
deriving Repr, Inhabited

/-- Keys of the node map, in insertion order. -/
def keys (g : DAG) : List String := mapKeys g.nodes

/-- `getNode`. -/
def DAG.getNode (g : DAG) (name : String) : Option DAGNode := mapGet g.nodes name

/-- `getAllNodes` (JS `Map.values()` iterates in insertion order). -/
def DAG.getAllNodes (g : DAG) : List DAGNode := g.nodes.map (fun kv => kv.2)

/-- `getLeafNodes`: nodes with no children. -/
def DAG.getLeafNodes (g : DAG) : List DAGNode :=
  g.getAllNodes.filter (fun nd => nd.children.isEmpty)

/-- Children names of a node (empty when the name is unbound). -/
def childrenOf (g : DAG) (n : String) : List String :=
  match mapGet g.nodes n with
  | some nd => nd.children
  | none => []

/-- Parents names of a node (empty when the name is unbound). -/
def parentsOf (g : DAG) (n : String) : List String :=
  match mapGet g.nodes n with
  | some nd => nd.parents
  | none => []

/-- Phase 1 of `DAG.fromPipeline`: parse the optional config of a task.
`task.config ? JSON.parse(task.config) : undefined` — the empty string is
falsy so it is not parsed. -/
def parseCfg : Option String → Except String (Option Json)
  | none => .ok none
  | some s =>
    if s == "" then .ok none
    else
      match jsonParse s with
      | .ok j => .ok (some j)
      | .error m => .error m

/-- Phase 1 of `DAG.fromPipeline`: allocate one node per task (later tasks
with the same name overwrite the map slot) and remember the last task whose
trigger is `"_run_"` as the root. -/
def buildNodes : List PipelineTask → List (String × DAGNode) → Option String →
    Except String (List (String × DAGNode) × Option String)
  | [], m, r => .ok (m, r)
  | t :: ts, m, r =>
    match parseCfg t.config with
    | .error e => .error e
    | .ok cfg =>
      let node : DAGNode :=
        { name := t.name, taskId := t.taskId, trigger := t.trigger,
          config := cfg, children := [], parents := [] }
      let m2 := mapSet m t.name node
      let r2 := if t.trigger == rootTrigger then some t.name else r
      buildNodes ts m2 r2

/-- Phase 2 of `DAG.fromPipeline` for one non-root task: if both the task's
node and its trigger's node exist, push the child into the parent's
`children` and the parent into the child's `parents` (in this order, as the
source does). -/
def addEdge (m : List (String × DAGNode)) (t : PipelineTask) :
    List (String × DAGNode) :=
  match mapGet m t.name, mapGet m t.trigger with
  | some _, some _ =>
    let m1 := mapUpdate m t.trigger
      (fun nd => { nd with children := nd.children ++ [t.name] })
    mapUpdate m1 t.name
      (fun nd => { nd with parents := nd.parents ++ [t.trigger] })
  | _, _ => m

/-- `DAG.fromPipeline`, as a function of the task list (the source only
reads `pipeline.tasks`). -/
def DAG.fromTasks (ts : List PipelineTask) : Except String DAG :=
  match buildNodes ts [] none with
  | .error e => .error e
  | .ok (m, r) =>
    let m2 := ts.foldl
      (fun acc t => if t.trigger == rootTrigger then acc else addEdge acc t) m
    .ok { nodes := m2, root := r }

/-- `DAG.fromPipeline`: build the graph from a pipeline; throws exactly when
`JSON.parse` throws on some task's config. -/
def DAG.fromPipeline (p : Pipeline) : Except String DAG :=
  DAG.fromTasks p.tasks

/-! ## Graph algorithms

The JS traversals are recursive (`topologicalSort`, `hasCycle`) or
`while`-loops over a queue (the BFS helpers). Both are embedded with a fuel
argument; the wrapper functions pass a fuel that is an upper bound on the
number of steps the JS loop can take (each recursive DFS call on an
unvisited node adds a fresh name to the visited set; each BFS iteration
pops one queue entry and entries are pushed at most once per newly visited
node). -/

/-- The recursive `dfs` of `topologicalSort`: mark visited on entry, visit
children first, append the node after them (post-order). State is
(visited, result). -/
def topoDfs (g : DAG) (fuel : Nat) (n : String)
    (st : List String × List String) : List String × List String :=
  match fuel with
  | 0 => st
  | f + 1 =>
    if n ∈ st.1 then st
    else
      let st2 := (childrenOf g n).foldl (fun s c => topoDfs g f c s)
        (n :: st.1, st.2)
      (st2.1, st2.2 ++ [n])

/-- `topologicalSort`: DFS post-order from the root only, reversed. Returns
node names (the JS version returns the node objects). -/
def DAG.topologicalSort (g : DAG) : List String :=
  match g.root with
  | none => []
  | some r => ((topoDfs g (g.nodes.length + 2) r ([], [])).2).reverse

/-- The recursive `dfs` of `hasCycle`: add the node to `visited` and to the
recursion stack, scan children (unvisited child: recurse; visited child on
the stack: report a cycle), then remove the node from the stack. The fold
carries (found, visited, stack) and becomes a no-op once `found` is true,
modelling the early `return true`. -/
def cycleDfs (g : DAG) (fuel : Nat) (n : String) (vis stk : List String) :
    Bool × List String × List String :=
  match fuel with
  | 0 => (false, vis, stk)
  | f + 1 =>
    let vis2 := n :: vis
    let stk2 := n :: stk
    let r := (childrenOf g n).foldl
      (fun (st : Bool × List String × List String) c =>
        match st with
        | (true, v, s) => (true, v, s)
        | (false, v, s) =>
          if c ∈ v then
            if c ∈ s then (true, v, s) else (false, v, s)
          else cycleDfs g f c v s)
      (false, vis2, stk2)
    match r with
    | (true, v, s) => (true, v, s)
    | (false, v, s) => (false, v, s.erase n)

/-- `hasCycle`: run the DFS from every not-yet-visited node (covering
disconnected fragments); `true` as soon as any run finds a back edge. -/
def DAG.hasCycle (g : DAG) : Bool :=
  (g.nodes.foldl
    (fun (st : Bool × List String × List String) kv =>
      match st with
      | (true, v, s) => (true, v, s)
      | (false, v, s) =>
        if kv.2.name ∈ v then (false, v, s)
        else cycleDfs g (g.nodes.length + 1) kv.2.name v s)
    (false, [], [])).1

/-- The generic BFS loop shared by `getReachableNodes`, `getAncestors` and
`getDescendants`: pop the queue front, skip it if already collected,
otherwise collect it and push its neighbours. -/
def bfsLoop (adj : String → List String) : Nat → List String → List String →
    List String
  | 0, _, acc => acc
  | f + 1, queue, acc =>
    match queue with
    | [] => acc
    | x :: rest =>
      if x ∈ acc then bfsLoop adj f rest acc
      else bfsLoop adj f (rest ++ adj x) (acc ++ [x])

/-- Total number of child references in the graph (a bound on BFS pushes). -/
def totalChildren (g : DAG) : Nat :=
  g.nodes.foldl (fun a kv => a + kv.2.children.length) 0

/-- Total number of parent references in the graph (a bound on BFS pushes). -/
def totalParents (g : DAG) : Nat :=
  g.nodes.foldl (fun a kv => a + kv.2.parents.length) 0

/-- Fuel bound for the `getAncestors` BFS from `n`. -/
def ancFuel (g : DAG) (n : String) : Nat :=
  totalParents g + (parentsOf g n).length + 1

/-- Fuel bound for the `getDescendants` BFS from `n`. -/
def descFuel (g : DAG) (n : String) : Nat :=
  totalChildren g + (childrenOf g n).length + 1

/-- `getReachableNodes`: BFS along child edges from `start`, collecting the
start node itself. -/
def DAG.getReachableNodes (g : DAG) (start : String) : List String :=
  bfsLoop (childrenOf g) (totalChildren g + 2) [start] []

/-- `getUnreachableNodes`: with no root every node is unreachable; otherwise
the nodes whose name is not reachable from the root. -/
def DAG.getUnreachableNodes (g : DAG) : List DAGNode :=
  match g.root with
  | none => g.getAllNodes
  | some r =>
    let reachable := g.getReachableNodes r
    g.getAllNodes.filter (fun nd => !(reachable.contains nd.name))

/-- `getAncestors`: BFS along parent edges, seeded with the node's parents
(so the node itself is not in the initial frontier). -/
def DAG.getAncestors (g : DAG) (n : String) : List String :=
  bfsLoop (parentsOf g) (ancFuel g n) (parentsOf g n) []

/-- `getDescendants`: BFS along child edges, seeded with the node's
children. -/
def DAG.getDescendants (g : DAG) (n : String) : List String :=
  bfsLoop (childrenOf g) (descFuel g n) (childrenOf g n) []

/-! ## Structural validator (src/main/pipeline/validator.ts)

The Korean error strings below are the literals of the source. -/

def msgPipelineName : String := "Pipeline 이름이 필요합니다"

def msgMinTask : String := "최소 1개의 Task가 필요합니다"

def msgTaskNameEmpty : String := "Task 이름이 비어있습니다"

def msgDup (names : String) : String := s!"중복된 Task 이름: {names}"

def msgNoEntry : String :=
  "진입점이 없습니다. trigger가 \"_run_\"인 Task가 하나 필요합니다"

def msgMultiEntry (n : Nat) : String :=
  s!"진입점이 {n}개입니다. \"_run_\" trigger는 하나만 가능합니다"

def msgTriggerEmpty (task : String) : String :=
  s!"Task \"{task}\"의 trigger가 비어있습니다"

def msgTriggerMissing (task trig : String) : String :=
  s!"Task \"{task}\"의 trigger \"{trig}\"를 찾을 수 없습니다"

def msgSelfTrigger (task : String) : String :=
  s!"Task \"{task}\"가 자기 자신을 trigger로 설정했습니다"

def msgCycle : String := "순환 참조가 감지되었습니다. Pipeline은 DAG 구조여야 합니다"

def msgUnreachable (names : String) : String :=
  s!"Root에서 도달할 수 없는 Task: {names}"

def msgIsolated (names : String) : String :=
  s!"고립된 Task (연결되지 않음): {names}"

def msgDagFail (e : String) : String := s!"DAG 생성 실패: {e}"

def msgNameExists (n : String) : String := s!"이미 존재하는 Task 이름: {n}"

def msgTriggerNotFound (t : String) : String := s!"Trigger \"{t}\"를 찾을 수 없습니다"

def msgOneEntry : String := "진입점은 하나만 가능합니다"

def msgAddCycle : String := "이 Task를 추가하면 순환 참조가 발생합니다"

def msgAddFail : String := "Task 추가 검증 실패"

def msgTaskNotFound (n : String) : String := s!"Task \"{n}\"를 찾을 수 없습니다"

def msgDependents (names : String) : String :=
  s!"이 Task를 제거하면 다음 Task들이 고립됩니다: {names}"

def msgSelfTriggerSet : String := "자기 자신을 trigger로 설정할 수 없습니다"

def msgChangeCycle : String := "Trigger를 변경하면 순환 참조가 발생합니다"

def msgChangeFail : String := "Trigger 변경 검증 실패"

namespace PipelineValidator

/-- Step 2 of `validate`: one pass over the tasks carrying
(errors, nameSet, duplicates). Blank names are reported and skipped (they
never enter the name set); a name already in the set is appended to the
duplicate list. -/
def nameStep (st : List String × List String × List String)
    (t : PipelineTask) : List String × List String × List String :=
  let (errs, names, dups) := st
  if isBlank t.name then (errs ++ [msgTaskNameEmpty], names, dups)
  else
    let dups2 := if t.name ∈ names then dups ++ [t.name] else dups
    let names2 := if t.name ∈ names then names else names ++ [t.name]
    (errs, names2, dups2)

/-- Step 4 of `validate` for one task: blank trigger short-circuits the
other two checks; otherwise report a dangling trigger reference and a
self-referencing trigger. -/
def triggerStep (names : List String) (errs : List String)
    (t : PipelineTask) : List String :=
  if isBlank t.trigger then errs ++ [msgTriggerEmpty t.name]
  else
    let errs2 :=
      if t.trigger != rootTrigger && !(names.contains t.trigger) then
        errs ++ [msgTriggerMissing t.name t.trigger]
      else errs
    if t.trigger == t.name then errs2 ++ [msgSelfTrigger t.name] else errs2

/-- Step 2 of `validate`, aggregation: append the one aggregated
duplicate-name error when any duplicates were collected. -/
def dupStage (s2 : List String × List String × List String) : List String :=
  if s2.2.2.isEmpty then s2.1
  else s2.1 ++ [msgDup (String.intercalate ", " s2.2.2)]

/-- Step 3 of `validate`: zero entry points is one error, more than one is
a distinct error carrying the count. -/
def entryStage (runCount : Nat) (errs : List String) : List String :=
  if runCount == 0 then errs ++ [msgNoEntry]
  else if runCount > 1 then errs ++ [msgMultiEntry runCount]
  else errs

/-- Steps 5–7 of `validate`: only with zero errors so far, build the graph
(inside `try`), check for cycles and unreachable nodes, and compute the
isolated-node warning; a builder throw becomes the catch-branch error. The
second component records whether the graph checks ran. -/
def graphStage (p : Pipeline) (errs4 : List String) : ValidationResult × Bool :=
  if errs4.isEmpty then
    match DAG.fromPipeline p with
    | .ok dag =>
      let errs5 := if dag.hasCycle then errs4 ++ [msgCycle] else errs4
      let unreachable := dag.getUnreachableNodes
      let errs6 := if unreachable.isEmpty then errs5
        else errs5 ++ [msgUnreachable
          (String.intercalate ", " (unreachable.map (fun nd => nd.name)))]
      let isolated := p.tasks.filter (fun t =>
        match dag.getNode t.name with
        | none => false
        | some node =>
          t.trigger != rootTrigger && node.parents.isEmpty &&
            node.children.isEmpty)
      let warns := if isolated.isEmpty then ([] : List String)
        else [msgIsolated
          (String.intercalate ", " (isolated.map (fun t => t.name)))]
      ({ valid := errs6.isEmpty, errors := errs6, warnings := warns }, true)
    | .error e =>
      ({ valid := (errs4 ++ [msgDagFail e]).isEmpty
         errors := errs4 ++ [msgDagFail e]
         warnings := [] }, false)
  else
    ({ valid := errs4.isEmpty, errors := errs4, warnings := [] }, false)

/-- `PipelineValidator.validate`, instrumented: the second component
records whether the graph-level phase (build + cycle + reachability +
isolation checks) actually ran. -/
def validateFull (p : Pipeline) : ValidationResult × Bool :=
  let errors0 : List String := if isBlank p.name then [msgPipelineName] else []
  if p.tasks.isEmpty then
    ({ valid := false, errors := errors0 ++ [msgMinTask], warnings := [] }, false)
  else
    let s2 := p.tasks.foldl nameStep (errors0, [], [])
    let runCount := (p.tasks.filter (fun t => t.trigger == rootTrigger)).length
    let errs4 := p.tasks.foldl (triggerStep s2.2.1) (entryStage runCount (dupStage s2))
    graphStage p errs4

/-- `PipelineValidator.validate`. -/
def validate (p : Pipeline) : ValidationResult := (validateFull p).1

/-- The simulated pipeline of `canAddTask`: a fresh object whose task array
is a fresh copy with the new task appended. -/
def testPipelineAdd (p : Pipeline) (t : PipelineTask) : Pipeline :=
  { p with tasks := p.tasks ++ [t] }

/-- `canAddTask`, in state-passing form: the second component is the
caller's pipeline as observable after the call. The source never writes to
`pipeline` (the cycle simulation runs on `testPipelineAdd`), so the state
returned is the input. -/
def canAddTaskSt (p : Pipeline) (newTask : PipelineTask) :
    ValidationResult × Pipeline :=
  let errs0 : List String :=
    if p.tasks.any (fun t => t.name == newTask.name) then
      [msgNameExists newTask.name]
    else []
  let errs1 :=
    if newTask.trigger != rootTrigger then
      if p.tasks.any (fun t => t.name == newTask.trigger) then errs0
      else errs0 ++ [msgTriggerNotFound newTask.trigger]
    else
      if p.tasks.any (fun t => t.trigger == rootTrigger) then
        errs0 ++ [msgOneEntry]
      else errs0
  let errs2 :=
    match DAG.fromPipeline (testPipelineAdd p newTask) with
    | .ok dag => if dag.hasCycle then errs1 ++ [msgAddCycle] else errs1
    | .error _ => errs1 ++ [msgAddFail]
  ({ valid := errs2.isEmpty, errors := errs2, warnings := [] }, p)

/-- `canAddTask`: the validation result of the state-passing form. -/
def canAddTask (p : Pipeline) (t : PipelineTask) : ValidationResult :=
  (canAddTaskSt p t).1

/-- `canRemoveTask`: existence check (error and early return when the task
is absent), then a warning listing the tasks whose trigger is the removed
name. -/
def canRemoveTask (p : Pipeline) (taskName : String) : ValidationResult :=
  match p.tasks.find? (fun t => t.name == taskName) with
  | none => { valid := false, errors := [msgTaskNotFound taskName], warnings := [] }
  | some _ =>
    let dependents := p.tasks.filter (fun t => t.trigger == taskName)
    let warns := if dependents.isEmpty then ([] : List String)
      else [msgDependents (String.intercalate ", " (dependents.map (fun t => t.name)))]
    let errs : List String := []
    { valid := errs.isEmpty, errors := errs, warnings := warns }

/-- The simulated pipeline of `canChangeTrigger`: a fresh task array in
which only the task at `taskIndex` is replaced by a fresh copy with the new
trigger. -/
def testPipelineChange (p : Pipeline) (taskIndex : Nat) (newTrigger : String) :
    Pipeline :=
  let newTasks := p.tasks.mapIdx
    (fun i t => if i == taskIndex then { t with trigger := newTrigger } else t)
  { p with tasks := newTasks }

/-- `canChangeTrigger`, in state-passing form (same convention as
`canAddTaskSt`). -/
def canChangeTriggerSt (p : Pipeline) (taskName newTrigger : String) :
    ValidationResult × Pipeline :=
  match p.tasks.findIdx? (fun t => t.name == taskName) with
  | none =>
    ({ valid := false, errors := [msgTaskNotFound taskName], warnings := [] }, p)
  | some taskIndex =>
    if newTrigger != rootTrigger &&
        !(p.tasks.any (fun t => t.name == newTrigger)) then
      ({ valid := false, errors := [msgTriggerNotFound newTrigger], warnings := [] }, p)
    else if newTrigger == taskName then
      ({ valid := false, errors := [msgSelfTriggerSet], warnings := [] }, p)
    else
      let errs : List String :=
        match DAG.fromPipeline (testPipelineChange p taskIndex newTrigger) with
        | .ok dag => if dag.hasCycle then [msgChangeCycle] else []
        | .error _ => [msgChangeFail]
      ({ valid := errs.isEmpty, errors := errs, warnings := [] }, p)

/-- `canChangeTrigger`: the validation result of the state-passing form. -/
def canChangeTrigger (p : Pipeline) (taskName newTrigger : String) :
    ValidationResult :=
  (canChangeTriggerSt p taskName newTrigger).1

end PipelineValidator

/-! ## Workflow manager (src/main/pipeline/manager.ts)

The SQLite-backed `PipelineDatabase` is modelled as a list of pipelines
(`INSERT OR REPLACE` keyed by id); `Date.now()` and the generated fresh id
are passed in as arguments. Manager operations that touch storage take the
database and return the updated database next to their JS return value. -/

/-- Result shape of `savePipeline`. -/
structure SaveResult where
  success : Bool
  error : Option String
deriving Repr, DecidableEq

/-- Result shape of `addTask` / `removeTask` / `updateTask`. -/
structure MutationResult where
  success : Bool
  error : Option String
  warnings : Option (List String)
deriving Repr, DecidableEq

/-- Result shape of `getPipelineStats`. -/
structure PipelineStats where
  totalTasks : Nat
  entryPoints : Nat
  leafNodes : Nat
  maxDepth : Nat
deriving Repr, DecidableEq

/-- The stored pipelines. -/
abbrev Db := List Pipeline

/-- `PipelineDatabase.getPipeline` (a fresh object is built from the rows,
so the result never aliases stored state). -/
def dbGet (db : Db) (id : String) : Option Pipeline :=
  db.find? (fun p => p.id == id)

/-- `PipelineDatabase.savePipeline`: upsert by id. -/
def dbSave (db : Db) (p : Pipeline) : Db :=
  if db.any (fun q => q.id == p.id) then
    db.map (fun q => if q.id == p.id then p else q)
  else db ++ [p]

namespace PipelineManager

/-- `savePipeline`: validate; refuse to persist on errors; otherwise bump
`updatedAt` to `now` and write through the storage gateway. -/
def savePipeline (db : Db) (now : Nat) (p : Pipeline) : Db × SaveResult :=
  let validation := PipelineValidator.validate p
  if !validation.valid then
    (db, { success := false
           error := some (String.intercalate ", " validation.errors) })
  else
    let p2 := { p with updatedAt := now }
    (dbSave db p2, { success := true, error := none })

/-- `addTask`: look up the pipeline, run the mutation guard, and only when
it passes push the task and save. -/
def addTask (db : Db) (now : Nat) (pipelineId : String) (task : PipelineTask) :
    Db × MutationResult :=
  match dbGet db pipelineId with
  | none => (db, { success := false, error := some "Pipeline not found", warnings := none })
  | some pipeline =>
    let validation := PipelineValidator.canAddTask pipeline task
    if !validation.valid then
      (db, { success := false
             error := some (String.intercalate ", " validation.errors)
             warnings := some validation.warnings })
    else
      let p2 := { pipeline with tasks := pipeline.tasks ++ [task] }
      let saved := savePipeline db now p2
      (saved.1, { success := saved.2.success, error := saved.2.error
                  warnings := some validation.warnings })

/-- `removeTask`: look up the pipeline, run `canRemoveTask`, then — without
consulting `validation.valid` — filter the task list and save, forwarding
only the guard's warnings. -/
def removeTask (db : Db) (now : Nat) (pipelineId taskName : String) :
    Db × MutationResult :=
  match dbGet db pipelineId with
  | none => (db, { success := false, error := some "Pipeline not found", warnings := none })
  | some pipeline =>
    let validation := PipelineValidator.canRemoveTask pipeline taskName
    let p2 := { pipeline with tasks := pipeline.tasks.filter (fun t => t.name != taskName) }
    let saved := savePipeline db now p2
    (saved.1, { success := saved.2.success, error := saved.2.error
                warnings := some validation.warnings })

/-- `Partial<PipelineTask>`: each field optionally present. The `config`
field is itself optional in `PipelineTask`, hence the nested `Option`. -/
structure TaskUpdates where
  taskId : Option String
  name : Option String
  trigger : Option String
  config : Option (Option String)
deriving Repr, DecidableEq

/-- Object spread `\x7b...task, ...updates\x7d`. -/
def applyUpdates (t : PipelineTask) (u : TaskUpdates) : PipelineTask :=
  { taskId := u.taskId.getD t.taskId
    name := u.name.getD t.name
    trigger := u.trigger.getD t.trigger
    config := u.config.getD t.config }

/-- JS truthiness of `updates.trigger` (a present, non-empty string). -/
def truthyTrigger (u : TaskUpdates) : Option String :=
  match u.trigger with
  | some s => if s == "" then none else some s
  | none => none

/-- `updateTask`: not-found checks for the pipeline and the task; when the
update changes the trigger, consult `canChangeTrigger` before applying;
then apply the update and save. -/
def updateTask (db : Db) (now : Nat) (pipelineId taskName : String)
    (updates : TaskUpdates) : Db × MutationResult :=
  match dbGet db pipelineId with
  | none => (db, { success := false, error := some "Pipeline not found", warnings := none })
  | some pipeline =>
    match pipeline.tasks.findIdx? (fun t => t.name == taskName) with
    | none => (db, { success := false, error := some "Task not found", warnings := none })
    | some taskIndex =>
      let guard : Option ValidationResult :=
        match truthyTrigger updates with
        | some newTrig =>
          if newTrig != (pipeline.tasks.getD taskIndex default).trigger then
            some (PipelineValidator.canChangeTrigger pipeline taskName newTrig)
          else none
        | none => none
      match guard with
      | some validation =>
        if !validation.valid then
          (db, { success := false
                 error := some (String.intercalate ", " validation.errors)
                 warnings := some validation.warnings })
        else
          let newTasks := pipeline.tasks.mapIdx
            (fun i t => if i == taskIndex then applyUpdates t updates else t)
          let saved := savePipeline db now { pipeline with tasks := newTasks }
          (saved.1, { success := saved.2.success, error := saved.2.error, warnings := none })
      | none =>
        let newTasks := pipeline.tasks.mapIdx
          (fun i t => if i == taskIndex then applyUpdates t updates else t)
        let saved := savePipeline db now { pipeline with tasks := newTasks }
        (saved.1, { success := saved.2.success, error := saved.2.error, warnings := none })

/-- `getPipelineAsDAG`: `null` when the pipeline is missing or the builder
throws. -/
def getPipelineAsDAG (db : Db) (pipelineId : String) : Option DAG :=
  match dbGet db pipelineId with
  | none => none
  | some p =>
    match DAG.fromPipeline p with
    | .ok g => some g
    | .error _ => none

/-- `clonePipeline`: spread-copy of the original under a fresh id and name
(`newName` when truthy, otherwise the original name plus " (복사본)"), with
fresh timestamps, persisted without validation. -/
def clonePipeline (db : Db) (newId : String) (now : Nat)
    (pipelineId : String) (newName : Option String) : Db × Option Pipeline :=
  match dbGet db pipelineId with
  | none => (db, none)
  | some original =>
    let cloned : Pipeline :=
      { original with
        id := newId
        name := match newName with
          | some s => if s == "" then original.name ++ " (복사본)" else s
          | none => original.name ++ " (복사본)"
        createdAt := now
        updatedAt := now }
    (dbSave db cloned, some cloned)

/-- The recursive `calculateDepth` of `getPipelineStats`: update the running
maximum with the current depth, then recurse into every child with
depth + 1. The source has no visited set; the fuel argument bounds the
recursion depth, and exhaustion (`none`) at every fuel models
non-termination. -/
def calcDepth (g : DAG) : Nat → String → Nat → Nat → Option Nat
  | 0, _, _, _ => none
  | f + 1, n, depth, acc =>
    let acc2 := Nat.max acc depth
    (childrenOf g n).foldlM (fun a c => calcDepth g f c (depth + 1) a) acc2

/-- `getPipelineStats`, fuelled through `calculateDepth`. The outer `none`
means the depth recursion did not finish within `fuel` nested calls;
`some none` is the JS `null` result. -/
def getPipelineStats (fuel : Nat) (db : Db) (pipelineId : String) :
    Option (Option PipelineStats) :=
  match getPipelineAsDAG db pipelineId with
  | none => some none
  | some dag =>
    let nodes := dag.getAllNodes
    let leaf := dag.getLeafNodes
    match dag.root with
    | none =>
      some (some { totalTasks := nodes.length, entryPoints := 0
                   leafNodes := leaf.length, maxDepth := 0 })
    | some r =>
      match calcDepth dag fuel r 0 0 with
      | none => none
      | some d =>
        some (some { totalTasks := nodes.length, entryPoints := 1
                     leafNodes := leaf.length, maxDepth := d })

end PipelineManager

/-! ## Specification vocabulary

Decidable path predicates and well-formedness notions used to state the
properties; these are not translations of source functions. -/

/-- Bounded path predicate: a directed walk of exactly `k` steps from `a`
to `b` along the adjacency function `adj`. -/
def pathLenB (adj : String → List String) : Nat → String → String → Bool
  | 0, a, b => a == b
  | k + 1, a, b => (adj a).any (fun c => pathLenB adj k c b)

/-- No closed walk from `n` back to itself of any length `1..bound`. -/
def noSelfLoopB (adj : String → List String) (bound : Nat) (n : String) : Bool :=
  (List.range (bound + 1)).all (fun k => k == 0 || !(pathLenB adj k n n))

/-- One directed edge of the graph: `b` is among the children of `a`. -/
def Edge (g : DAG) (a b : String) : Prop := b ∈ childrenOf g a

/-- `u` is a (strict) ancestor of `v`: a nonempty walk of child edges from
`u` to `v`. -/
def Ancestor (g : DAG) (u v : String) : Prop := Relation.TransGen (Edge g) u v

/-- Decidable acyclicity: no node of the map admits a closed child-edge
walk of length `1..(size+1)`. On well-formed graphs any closed walk yields
one of length at most the number of nodes, so this coincides with genuine
acyclicity. -/
def acyclicB (g : DAG) : Bool :=
  (keys g).all (fun n =>
    (List.range (g.nodes.length + 2)).all
      (fun k => k == 0 || !(pathLenB (childrenOf g) k n n)))

/-- Well-formedness of a node map as produced by the builder: every entry
is keyed by its node's name and all child/parent references are keys of
the map. -/
def WFmap (m : List (String × DAGNode)) : Prop :=
  ∀ kv ∈ m, kv.2.name = kv.1 ∧
    (∀ c ∈ kv.2.children, c ∈ mapKeys m) ∧ (∀ q ∈ kv.2.parents, q ∈ mapKeys m)

/-- Well-formedness of a graph as produced by the builder. -/
def WF (g : DAG) : Prop := WFmap g.nodes

/-- All task configs are absent, empty, or valid JSON (so `JSON.parse`
cannot throw while building). -/
def cfgOkTasks (ts : List PipelineTask) : Bool :=
  ts.all (fun t => (parseCfg t.config).isOk)

/-- The name of the last task in list order whose trigger is `"_run_"`. -/
def lastRunRoot (ts : List PipelineTask) : Option String :=
  ((ts.filter (fun t => t.trigger == rootTrigger)).getLast?).map (fun t => t.name)

/-- The root-selection fold performed by phase 1 of the builder. -/
def rootFold (r : Option String) (ts : List PipelineTask) : Option String :=
  ts.foldl (fun acc t => if t.trigger == rootTrigger then some t.name else acc) r

/-- The chain of currently active DFS calls above the node `n`, most recent
caller first: each listed node has an edge to the next one down. -/
def GreyChain (g : DAG) : List String → String → Prop
  | [], _ => True
  | p :: ps, n => Edge g p n ∧ GreyChain g ps p

/-- Post-order closure of a result list: whenever the list splits at `x`,
every child of `x` already occurs in the prefix. -/
def ChildrenBefore (g : DAG) (res : List String) : Prop :=
  ∀ pre x post, res = pre ++ x :: post → ∀ c ∈ childrenOf g x, c ∈ pre

/-- Invariants carried by the topological-sort DFS over its
(visited, result) state, relative to the active call chain `grey`:
visited is exactly result plus the chain, the chain is unfinished, the
result is duplicate-free and post-order closed, and visited is a
duplicate-free subset of the node keys. -/
structure TopoInv (g : DAG) (grey : List String)
    (st : List String × List String) : Prop where
  setEq : ∀ x, x ∈ st.1 ↔ x ∈ st.2 ∨ x ∈ grey
  greyDisj : ∀ x ∈ grey, x ∉ st.2
  resNodup : st.2.Nodup
  closed : ChildrenBefore g st.2
  visNodup : st.1.Nodup
  visKeys : st.1 ⊆ keys g

/-- Well-formedness of the active call chain above the node `n` currently
being visited. -/
structure GreyOk (g : DAG) (grey : List String) (n : String) : Prop where
  chain : GreyChain g grey n
  notMem : n ∉ grey
  nodup : grey.Nodup
  keysSub : grey ⊆ keys g
  nKey : n ∈ keys g

/-! ## Concrete instances used by the theorems -/

/-- A root task, used by several concrete workflows. -/
def taskCrawl : PipelineTask := ⟨"t1", "crawl", "_run_", none⟩

/-- A valid one-task workflow. -/
def pOneTask : Pipeline := ⟨"p1", "w", none, [taskCrawl], 0, 5⟩

/-- A workflow with an empty task list and a blank display name. -/
def pxEmptyBlank : Pipeline := ⟨"wf0", "", none, [], 0, 0⟩

/-- A workflow with an empty task list and a non-blank display name. -/
def pxEmptyNamed : Pipeline := ⟨"wf1", "My Flow", none, [], 3, 4⟩

/-- Scenario A of the test suite: the simple chain crawl → filter → shot. -/
def pChain : Pipeline :=
  ⟨"pa", "Simple Chain", none,
    [⟨"t1", "crawl", "_run_", none⟩, ⟨"t2", "filter", "crawl", none⟩,
     ⟨"t3", "shot", "filter", none⟩], 0, 0⟩

/-- The graph built from the simple chain. -/
def gChain : DAG :=
  match DAG.fromPipeline pChain with
  | .ok g => g
  | .error _ => default

/-- A pipeline whose trigger relation is cyclic (r → a → b → a) and whose
cycle is reachable from the root thanks to the duplicate task name `a`. -/
def pCyclicStats : Pipeline :=
  ⟨"p1", "cyclic", none,
    [⟨"t1", "r", "_run_", none⟩, ⟨"t2", "a", "r", none⟩,
     ⟨"t3", "b", "a", none⟩, ⟨"t4", "a", "b", none⟩], 0, 0⟩

/-- The graph built from `pCyclicStats`. -/
def gCyclicStats : DAG :=
  match DAG.fromPipeline pCyclicStats with
  | .ok g => g
  | .error _ => default

/-- A rootless two-task workflow whose tasks trigger each other. -/
def pTwoCycle : Pipeline :=
  ⟨"p6", "cycle2", none,
    [⟨"t1", "a", "b", none⟩, ⟨"t2", "b", "a", none⟩], 0, 0⟩

/-- The graph built from `pTwoCycle`: the two-node cycle a ↔ b. -/
def gTwoCycle : DAG :=
  match DAG.fromPipeline pTwoCycle with
  | .ok g => g
  | .error _ => default

/-- A pipeline whose single task carries a malformed JSON config (a lone
left brace). -/
def pBadCfg : Pipeline :=
  ⟨"pb", "bad cfg", none, [⟨"t1", "a", "_run_", some "\x7b"⟩], 0, 0⟩

/-- The same pipeline with a well-formed JSON config. -/
def pGoodCfg : Pipeline :=
  ⟨"pb", "bad cfg", none, [⟨"t1", "a", "_run_", some "1"⟩], 0, 0⟩

/-- A pipeline with two entry-point tasks (both trigger `"_run_"`), the
second of which also has a malformed config. -/
def pTwoRootsBadCfg : Pipeline :=
  ⟨"pr", "two roots", none,
    [⟨"t1", "r1", "_run_", none⟩, ⟨"t2", "r2", "_run_", some "\x7b"⟩], 0, 0⟩

/-- A valid-config pipeline with two entry-point tasks. -/
def pTwoRoots : Pipeline :=
  ⟨"pr", "two roots", none,
    [⟨"t1", "r1", "_run_", none⟩, ⟨"t2", "r2", "_run_", none⟩], 0, 0⟩

/-- A valid one-task workflow with a blank display name (clone source). -/
def pBlankName : Pipeline := ⟨"p1", "", none, [taskCrawl], 0, 5⟩

/-! ## Theorems -/

/-- A list with an appended element is never empty. -/
theorem isEmpty_append_singleton (l : List String) (x : String) :
    (l ++ [x]).isEmpty = false := by
  cases l <;> rfl

/-- C9: every `ValidationResult` returned by `validate`, `canAddTask`,
`canRemoveTask` and `canChangeTrigger` has `valid = true` exactly when its
error list is empty. -/
theorem validation_valid_iff_errors_empty :
    ∀ (p q : Pipeline) (t : PipelineTask) (tn trg : String),
      ((PipelineValidator.validate p).valid =
        (PipelineValidator.validate p).errors.isEmpty) ∧
      ((PipelineValidator.canAddTask q t).valid =
        (PipelineValidator.canAddTask q t).errors.isEmpty) ∧
      ((PipelineValidator.canRemoveTask q tn).valid =
        (PipelineValidator.canRemoveTask q tn).errors.isEmpty) ∧
      ((PipelineValidator.canChangeTrigger q tn trg).valid =
        (PipelineValidator.canChangeTrigger q tn trg).errors.isEmpty) := by
  intro p q t tn trg
  refine ⟨?_, rfl, ?_, ?_⟩
  · unfold PipelineValidator.validate PipelineValidator.validateFull
      PipelineValidator.graphStage
    by_cases htasks : p.tasks.isEmpty = true
    · rw [if_pos htasks]
      simp [isEmpty_append_singleton]
    · rw [if_neg htasks]
      dsimp only
      repeat first
        | rfl
        | split
  · unfold PipelineValidator.canRemoveTask
    split <;> rfl
  · unfold PipelineValidator.canChangeTrigger PipelineValidator.canChangeTriggerSt
    split
    · rfl
    · split
      · rfl
      · split <;> rfl

/-- C10: the mutation-guard checks `canAddTask` and `canChangeTrigger`
never modify the pipeline they are given: in the state-passing embedding
(whose second component is the caller-visible pipeline after the call, with
the cycle simulation running on the freshly built test pipeline) the
returned state is exactly the input, so its task list, names and triggers
are untouched. -/
theorem mutation_guard_preserves_input :
    ∀ (p : Pipeline) (t : PipelineTask) (tn trg : String),
      (PipelineValidator.canAddTaskSt p t).2 = p ∧
      (PipelineValidator.canChangeTriggerSt p tn trg).2 = p ∧
      (PipelineValidator.canAddTaskSt p t).2.tasks = p.tasks ∧
      (PipelineValidator.canChangeTriggerSt p tn trg).2.tasks = p.tasks := by
  intro p t tn trg
  have h2 : (PipelineValidator.canChangeTriggerSt p tn trg).2 = p := by
    unfold PipelineValidator.canChangeTriggerSt
    split
    · rfl
    · split
      · rfl
      · split <;> rfl
  exact ⟨rfl, h2, rfl, by rw [h2]⟩

/-- C4 (amended): on an empty task list, `validate` stops before any
graph-level work (the instrumentation bit is `false`) and returns exactly
the "needs at least one task" error, preceded by the blank-name error when
the workflow name is blank. -/
theorem validate_empty_tasks_short_circuits :
    ∀ p : Pipeline, p.tasks = [] →
      PipelineValidator.validateFull p =
        ({ valid := false
           errors := (if isBlank p.name then [msgPipelineName] else []) ++ [msgMinTask]
           warnings := [] }, false) := by
  intro p h
  unfold PipelineValidator.validateFull
  rw [h]
  rfl

/-- C4, counterexample to the claim as stated: a workflow with an empty
task list and a blank name yields two errors, not exactly one. -/
theorem validate_empty_tasks_blank_name_two_errors :
    (PipelineValidator.validate pxEmptyBlank).errors =
      [msgPipelineName, msgMinTask] ∧
    (PipelineValidator.validate pxEmptyBlank).errors.length ≠ 1 := by
  constructor
  · rfl
  · decide

/-- C4, witness: the amended theorem applied to the empty workflow with the
non-blank name "My Flow". -/
theorem validate_empty_tasks_short_circuits_witness :
    PipelineValidator.validateFull pxEmptyNamed =
      ({ valid := false
         errors := (if isBlank pxEmptyNamed.name then [msgPipelineName] else []) ++ [msgMinTask]
         warnings := [] }, false) :=
  validate_empty_tasks_short_circuits pxEmptyNamed rfl

/-- Phase 1 of the builder succeeds whenever every config parses, and its
root is the root-selection fold of the task list. -/
theorem buildNodes_ok (ts : List PipelineTask) :
    cfgOkTasks ts = true →
    ∀ (m : List (String × DAGNode)) (r : Option String),
      ∃ m2, buildNodes ts m r = .ok (m2, rootFold r ts) := by
  induction ts with
  | nil => intro _ m r; exact ⟨m, rfl⟩
  | cons t ts ih =>
    intro hok m r
    simp only [cfgOkTasks, List.all_cons, Bool.and_eq_true] at hok
    obtain ⟨hcfg, hrest⟩ := hok
    obtain ⟨cfg, hcfgEq⟩ : ∃ c, parseCfg t.config = .ok c := by
      cases h : parseCfg t.config with
      | ok c => exact ⟨c, rfl⟩
      | error e => rw [h] at hcfg; simp [Except.isOk, Except.toBool] at hcfg
    have := ih hrest
    simp only [buildNodes, hcfgEq]
    obtain ⟨m2, hm2⟩ := this
      (mapSet m t.name
        { name := t.name, taskId := t.taskId, trigger := t.trigger,
          config := cfg, children := [], parents := [] })
      (if t.trigger == rootTrigger then some t.name else r)
    exact ⟨m2, by rw [hm2]; rfl⟩

/-- The root-selection fold keeps the name of the last task in list order
whose trigger is the root sentinel, falling back to its initial value. -/
theorem rootFold_eq_lastRun (ts : List PipelineTask) :
    ∀ r, rootFold r ts =
      match lastRunRoot ts with
      | some n => some n
      | none => r := by
  induction ts using List.reverseRecOn with
  | nil => intro r; rfl
  | append_singleton ts t ih =>
    intro r
    unfold rootFold lastRunRoot at ih ⊢
    rw [List.foldl_append, List.filter_append]
    simp only [beq_iff_eq] at ih ⊢
    by_cases hrun : t.trigger = rootTrigger
    · simp [hrun, List.getLast?_concat]
    · simp [hrun]
      simpa using ih r

/-- The builder succeeds whenever every config parses, with the last
`"_run_"` task (if any) as root. -/
theorem fromTasks_ok_of_cfgOk (ts : List PipelineTask)
    (hok : cfgOkTasks ts = true) :
    ∃ g, DAG.fromTasks ts = .ok g ∧ g.root = lastRunRoot ts := by
  obtain ⟨m2, hm2⟩ := buildNodes_ok ts hok [] none
  refine ⟨_, by unfold DAG.fromTasks; rw [hm2], ?_⟩
  have := rootFold_eq_lastRun ts none
  simp only [this]
  cases lastRunRoot ts <;> rfl

/-- C2 (amended): `DAG.fromPipeline` parses every non-empty task config
with `JSON.parse` — so it is not config-agnostic and can throw — but it
never fails on any pipeline whose configs are all absent, empty, or valid
JSON; in particular it never fails because of task names, triggers,
duplicates, or cycles. -/
theorem fromPipeline_ok_of_configs_parse :
    ∀ p : Pipeline, cfgOkTasks p.tasks = true →
      (DAG.fromPipeline p).isOk = true := by
  intro p hok
  obtain ⟨g, hg, _⟩ := fromTasks_ok_of_cfgOk p.tasks hok
  unfold DAG.fromPipeline
  rw [hg]
  rfl

/-- C2, counterexample to the claim as stated: building throws on a task
whose config is the malformed JSON string "\x7b", while the pipeline that
differs only in that config builds fine — so building both can fail and
inspects the config payload. -/
theorem fromPipeline_throws_on_bad_config :
    (DAG.fromPipeline pBadCfg).isOk = false ∧
    (DAG.fromPipeline pGoodCfg).isOk = true ∧
    pBadCfg.tasks.map (fun t => (t.taskId, t.name, t.trigger)) =
      pGoodCfg.tasks.map (fun t => (t.taskId, t.name, t.trigger)) := by
  refine ⟨rfl, rfl, rfl⟩

/-- C2, witness: the amended theorem applied to the valid-config
pipeline. -/
theorem fromPipeline_ok_of_configs_parse_witness :
    (DAG.fromPipeline pGoodCfg).isOk = true :=
  fromPipeline_ok_of_configs_parse pGoodCfg (by decide)

/-- Each trigger-check step only appends to the error list. -/
theorem mem_triggerStep (names errs : List String) (t : PipelineTask)
    (x : String) (hx : x ∈ errs) :
    x ∈ PipelineValidator.triggerStep names errs t := by
  unfold PipelineValidator.triggerStep
  split
  · simp [hx]
  · dsimp only
    split <;> split <;> simp [hx]

/-- The whole trigger-check pass only appends to the error list. -/
theorem mem_foldl_triggerStep (names : List String) :
    ∀ (ts : List PipelineTask) (errs : List String) (x : String), x ∈ errs →
      x ∈ ts.foldl (PipelineValidator.triggerStep names) errs := by
  intro ts
  induction ts with
  | nil => intro errs x hx; simpa using hx
  | cons t ts ih =>
    intro errs x hx
    simpa using ih _ x (mem_triggerStep names errs t x hx)

/-- With at least two entry points, the entry stage appends the count
error. -/
theorem mem_entryStage_multi (n : Nat) (errs : List String) (h : 2 ≤ n) :
    msgMultiEntry n ∈ PipelineValidator.entryStage n errs := by
  unfold PipelineValidator.entryStage
  rw [if_neg (by simp; omega), if_pos (by omega)]
  simp

/-- With zero entry points, the entry stage appends the no-entry error. -/
theorem mem_entryStage_zero (errs : List String) :
    msgNoEntry ∈ PipelineValidator.entryStage 0 errs := by
  unfold PipelineValidator.entryStage
  rw [if_pos (by simp)]
  simp

/-- The graph stage never drops errors accumulated by steps 1–4. -/
theorem graphStage_errors_superset (p : Pipeline) (errs : List String)
    (x : String) (hx : x ∈ errs) :
    x ∈ (PipelineValidator.graphStage p errs).1.errors := by
  unfold PipelineValidator.graphStage
  split
  · next h =>
    rw [List.isEmpty_iff] at h
    subst h
    simp at hx
  · exact hx

/-- C5 (amended): the builder tolerates any number of entry points — when
every task config parses it never fails and sets the root to the last task
in list order whose trigger is `"_run_"` — while `validate` reports the
distinct count error whenever at least two tasks claim the entry point,
and reports the no-entry error whenever no task does and the task list is
nonempty (an empty task list short-circuits before the entry-point
check). -/
theorem builder_keeps_last_root_validator_counts_entries :
    ∀ p : Pipeline,
      (cfgOkTasks p.tasks = true →
        ∃ g, DAG.fromPipeline p = .ok g ∧ g.root = lastRunRoot p.tasks) ∧
      (2 ≤ (p.tasks.filter (fun t => t.trigger == rootTrigger)).length →
        msgMultiEntry ((p.tasks.filter (fun t => t.trigger == rootTrigger)).length)
          ∈ (PipelineValidator.validate p).errors) ∧
      ((p.tasks.filter (fun t => t.trigger == rootTrigger)).length = 0 →
        p.tasks ≠ [] →
        msgNoEntry ∈ (PipelineValidator.validate p).errors) := by
  intro p
  refine ⟨fun hok => fromTasks_ok_of_cfgOk p.tasks hok, ?_, ?_⟩
  · intro h2
    have hne : p.tasks ≠ [] := by
      intro h
      rw [h] at h2
      simp at h2
    have htasks : ¬(p.tasks.isEmpty = true) := by
      simpa [List.isEmpty_iff] using hne
    unfold PipelineValidator.validate PipelineValidator.validateFull
    rw [if_neg htasks]
    dsimp only
    exact graphStage_errors_superset p _ _
      (mem_foldl_triggerStep _ p.tasks _ _ (mem_entryStage_multi _ _ h2))
  · intro h0 hne
    have htasks : ¬(p.tasks.isEmpty = true) := by
      simpa [List.isEmpty_iff] using hne
    unfold PipelineValidator.validate PipelineValidator.validateFull
    rw [if_neg htasks]
    dsimp only
    rw [h0]
    exact graphStage_errors_superset p _ _
      (mem_foldl_triggerStep _ p.tasks _ _ (mem_entryStage_zero _))

/-- C5, counterexample to the claim as stated: with two `"_run_"` tasks
the builder can still fail — the second root task's malformed config makes
`JSON.parse` throw — and with zero `"_run_"` tasks but an empty task list
`validate` does not report the no-entry error. -/
theorem builder_two_roots_can_fail :
    (DAG.fromPipeline pTwoRootsBadCfg).isOk = false ∧
    (pTwoRootsBadCfg.tasks.filter (fun t => t.trigger == rootTrigger)).length = 2 ∧
    msgNoEntry ∉ (PipelineValidator.validate pxEmptyNamed).errors := by
  refine ⟨rfl, rfl, by decide⟩

/-- C5, witness: the amended theorem applied to the two-root pipeline with
parseable configs and to the rootless two-task pipeline. -/
theorem builder_keeps_last_root_validator_counts_entries_witness :
    ((DAG.fromPipeline pTwoRoots).toOption.map (fun g => g.root)) = some (some "r2") ∧
    msgMultiEntry 2 ∈ (PipelineValidator.validate pTwoRoots).errors ∧
    msgNoEntry ∈ (PipelineValidator.validate pTwoCycle).errors := by
  obtain ⟨h1, h2, _⟩ := builder_keeps_last_root_validator_counts_entries pTwoRoots
  obtain ⟨g, hg, hr⟩ := h1 (by decide)
  refine ⟨by rw [hg]; show some g.root = some (some "r2"); rw [hr]; rfl, ?_, ?_⟩
  · have := h2 (by decide)
    simpa using this
  · have := (builder_keeps_last_root_validator_counts_entries pTwoCycle).2.2
      (by decide) (by decide)
    exact this

/-- Blankness distributes over string concatenation. -/
theorem isBlank_append (s t : String) :
    isBlank (s ++ t) = (isBlank s && isBlank t) := by
  unfold isBlank
  have h : (s ++ t).toList = s.toList ++ t.toList := String.data_append s t
  rw [h, List.all_append]

/-- `validate` reads a pipeline only through the blankness of its name and
through its task list. -/
theorem validateFull_congr (p q : Pipeline)
    (hb : isBlank p.name = isBlank q.name) (ht : p.tasks = q.tasks) :
    PipelineValidator.validateFull p = PipelineValidator.validateFull q := by
  unfold PipelineValidator.validateFull PipelineValidator.graphStage
    DAG.fromPipeline
  rw [hb, ht]

/-- C8 (amended): cloning with the one-argument call (no replacement name)
always copies the task list verbatim (same names, triggers and configs)
and stamps the supplied fresh identifier — so the clone's identifier
differs from the source's whenever the generated identifier does — and,
provided the source's display name is not blank, the clone validates to
exactly the same valid/errors/warnings result as the source. (When the
source name is blank, the derived clone name `name ++ " (복사본)"` is
non-blank, so the clone can validate differently: see the
counterexample.) -/
theorem clone_same_tasks_fresh_id_same_validation :
    ∀ (db : Db) (newId : String) (now : Nat) (pid : String) (orig c : Pipeline),
      dbGet db pid = some orig →
      (PipelineManager.clonePipeline db newId now pid none).2 = some c →
      (c.tasks = orig.tasks ∧ c.id = newId ∧
        (newId ≠ orig.id → c.id ≠ orig.id)) ∧
      (isBlank orig.name = false →
        PipelineValidator.validate c = PipelineValidator.validate orig) := by
  intro db newId now pid orig c hget hc
  unfold PipelineManager.clonePipeline at hc
  rw [hget] at hc
  dsimp only at hc
  have hceq : c = { orig with
      id := newId
      name := orig.name ++ " (복사본)"
      createdAt := now
      updatedAt := now } := by
    cases hc
    rfl
  subst hceq
  refine ⟨⟨rfl, rfl, fun h => h⟩, ?_⟩
  intro hblank
  have hb2 : isBlank ({ orig with
      id := newId
      name := orig.name ++ " (복사본)"
      createdAt := now
      updatedAt := now } : Pipeline).name = isBlank orig.name := by
    show isBlank (orig.name ++ " (복사본)") = isBlank orig.name
    rw [isBlank_append, hblank]
    rfl
  unfold PipelineValidator.validate
  exact congrArg Prod.fst (validateFull_congr _ orig hb2 rfl)

/-- C8, counterexample to the claim as stated: cloning a stored workflow
whose display name is blank yields a clone that validates successfully
while the source does not, so the clone does not always validate to the
same result. -/
theorem clone_of_blank_name_validates_differently :
    (PipelineValidator.validate pBlankName).valid = false ∧
    ((PipelineManager.clonePipeline [pBlankName] "p2" 7 "p1" none).2.map
      (fun c => (PipelineValidator.validate c).valid)) = some true ∧
    ((PipelineManager.clonePipeline [pBlankName] "p2" 7 "p1" none).2.map
      (fun c => c.tasks)) = some pBlankName.tasks := by
  refine ⟨by decide, by decide, by decide⟩

/-- C8, witness: the amended theorem applied to the one-task workflow with
the non-blank name "w" and the fresh identifier "p2": the clone keeps the
task list, carries a differing identifier, and validates identically. -/
theorem clone_same_tasks_fresh_id_same_validation_witness :
    PipelineValidator.validate
        ((PipelineManager.clonePipeline [pOneTask] "p2" 7 "p1" none).2.getD pOneTask) =
      PipelineValidator.validate pOneTask ∧
    ((PipelineManager.clonePipeline [pOneTask] "p2" 7 "p1" none).2.getD pOneTask).tasks =
      pOneTask.tasks ∧
    ((PipelineManager.clonePipeline [pOneTask] "p2" 7 "p1" none).2.getD pOneTask).id ≠
      pOneTask.id := by
  obtain ⟨⟨h1, _, h3⟩, h4⟩ := clone_same_tasks_fresh_id_same_validation
    [pOneTask] "p2" 7 "p1" pOneTask
    ((PipelineManager.clonePipeline [pOneTask] "p2" 7 "p1" none).2.getD pOneTask)
    (by decide) rfl
  exact ⟨h4 (by decide), h1, h3 (by decide)⟩

/-- C3: `addTask` and `updateTask` do reject a mutation whose referenced
task name is missing before touching storage, but `removeTask` does not:
on the stored one-task workflow, removing the non-existent task "ghost"
returns success and rewrites the pipeline to storage with a bumped
`updatedAt`, even though `canRemoveTask` reported the not-found error —
the guard's `valid` flag is ignored on the removal path. -/
theorem removeTask_unknown_name_still_persists :
    ((PipelineValidator.canRemoveTask pOneTask "ghost").valid = false ∧
     PipelineManager.removeTask [pOneTask] 99 "p1" "ghost" =
       ([{ pOneTask with updatedAt := 99 }],
        { success := true, error := none, warnings := some [] }) ∧
     ([{ pOneTask with updatedAt := 99 }] : Db) ≠ [pOneTask]) ∧
    (∀ (db : Db) (now : Nat) (pid : String) (t : PipelineTask) (pl : Pipeline),
      dbGet db pid = some pl →
      (PipelineValidator.canAddTask pl t).valid = false →
      (PipelineManager.addTask db now pid t).1 = db) ∧
    (∀ (db : Db) (now : Nat) (pid tn : String)
      (u : PipelineManager.TaskUpdates) (pl : Pipeline),
      dbGet db pid = some pl →
      pl.tasks.findIdx? (fun t => t.name == tn) = none →
      (PipelineManager.updateTask db now pid tn u).1 = db) := by
  refine ⟨⟨by decide, by decide, by decide⟩, ?_, ?_⟩
  · intro db now pid t pl hget hval
    unfold PipelineManager.addTask
    rw [hget]
    dsimp only
    rw [hval]
    rfl
  · intro db now pid tn u pl hget hidx
    unfold PipelineManager.updateTask
    rw [hget]
    dsimp only
    rw [hidx]

/-- C3, witness: the two rejection branches of the theorem applied to the
stored one-task workflow (a second `"_run_"` task is rejected by the add
guard; an update addressed to the unknown task "nope" is rejected by the
not-found check), leaving the database untouched. -/
theorem removeTask_unknown_name_still_persists_witness :
    (PipelineManager.addTask [pOneTask] 99 "p1" ⟨"t9", "x", "_run_", none⟩).1 =
      [pOneTask] ∧
    (PipelineManager.updateTask [pOneTask] 99 "p1" "nope"
      ⟨none, none, none, none⟩).1 = [pOneTask] := by
  refine ⟨?_, ?_⟩
  · exact removeTask_unknown_name_still_persists.2.1 [pOneTask] 99 "p1"
      ⟨"t9", "x", "_run_", none⟩ pOneTask (by decide) (by decide)
  · exact removeTask_unknown_name_still_persists.2.2 [pOneTask] 99 "p1" "nope"
      ⟨none, none, none, none⟩ pOneTask (by decide) (by decide)

/-- On the cyclic graph of `pCyclicStats`, the depth recursion never
returns from either node of the root-reachable cycle, whatever the fuel. -/
theorem calcDepth_cycle_none :
    ∀ (fuel d acc : Nat),
      PipelineManager.calcDepth gCyclicStats fuel "a" d acc = none ∧
      PipelineManager.calcDepth gCyclicStats fuel "b" d acc = none := by
  intro fuel
  induction fuel with
  | zero => intro d acc; exact ⟨rfl, rfl⟩
  | succ f ih =>
    intro d acc
    have hca : childrenOf gCyclicStats "a" = ["b"] := by decide
    have hcb : childrenOf gCyclicStats "b" = ["a"] := by decide
    constructor
    · show (childrenOf gCyclicStats "a").foldlM
        (fun a c => PipelineManager.calcDepth gCyclicStats f c (d + 1) a)
        (Nat.max acc d) = none
      rw [hca]
      simp [List.foldlM, (ih (d + 1) (Nat.max acc d)).2]
    · show (childrenOf gCyclicStats "b").foldlM
        (fun a c => PipelineManager.calcDepth gCyclicStats f c (d + 1) a)
        (Nat.max acc d) = none
      rw [hcb]
      simp [List.foldlM, (ih (d + 1) (Nat.max acc d)).1]

/-- The depth recursion started at the root of `gCyclicStats` never
returns, whatever the fuel. -/
theorem calcDepth_root_none :
    ∀ fuel, PipelineManager.calcDepth gCyclicStats fuel "r" 0 0 = none := by
  intro fuel
  cases fuel with
  | zero => rfl
  | succ f =>
    have hcr : childrenOf gCyclicStats "r" = ["a"] := by decide
    show (childrenOf gCyclicStats "r").foldlM
      (fun a c => PipelineManager.calcDepth gCyclicStats f c 1 a)
      (Nat.max 0 0) = none
    rw [hcr]
    simp [List.foldlM, (calcDepth_cycle_none f 1 0).1]

/-- C1: on the pipeline whose trigger relation is cyclic with the cycle
reachable from the root (duplicate task name "a"), cycle detection,
topological sort and reachability all terminate — their visited sets stop
them — but the maximum-depth recursion of `getPipelineStats`, which has no
visited set, never returns at any fuel, so `getPipelineStats` does not
terminate on this input. -/
theorem stats_max_depth_diverges_on_cycle :
    (∀ fuel, PipelineManager.getPipelineStats fuel [pCyclicStats] "p1" = none) ∧
    DAG.fromPipeline pCyclicStats = Except.ok gCyclicStats ∧
    gCyclicStats.hasCycle = true ∧
    gCyclicStats.topologicalSort = ["r", "a", "b"] ∧
    gCyclicStats.getReachableNodes "r" = ["r", "a", "b"] ∧
    gCyclicStats.getAncestors "b" = ["a", "r", "b"] := by
  refine ⟨?_, rfl, by decide, by decide, by decide, by decide⟩
  intro fuel
  unfold PipelineManager.getPipelineStats
  have hdag : PipelineManager.getPipelineAsDAG [pCyclicStats] "p1" =
      some gCyclicStats := rfl
  rw [hdag]
  dsimp only
  have hroot : gCyclicStats.root = some "r" := rfl
  rw [hroot]
  dsimp only
  rw [calcDepth_root_none fuel]

/-- A `k`-step walk extends by one edge at its end. -/
theorem pathLenB_snoc (adj : String → List String) :
    ∀ (k : Nat) (a b c : String), pathLenB adj k a b = true → c ∈ adj b →
      pathLenB adj (k + 1) a c = true := by
  intro k
  induction k with
  | zero =>
    intro a b c h hc
    have hab : a = b := by simpa [pathLenB] using h
    subst hab
    simp only [pathLenB, List.any_eq_true]
    exact ⟨c, hc, by simp [pathLenB]⟩
  | succ k ih =>
    intro a b c h hc
    have hh : pathLenB adj (k + 1) a b =
        (adj a).any (fun e => pathLenB adj k e b) := rfl
    rw [hh, List.any_eq_true] at h
    obtain ⟨d, hd, hp⟩ := h
    have hg : pathLenB adj (k + 1 + 1) a c =
        (adj a).any (fun e => pathLenB adj (k + 1) e c) := rfl
    rw [hg, List.any_eq_true]
    exact ⟨d, hd, ih d b c hp hc⟩

/-- Soundness of the BFS loop: every name it ever collects is the target of
a nonempty walk from `n`, of length bounded by the initial fuel budget
(each loop iteration can lengthen the known walks by at most one step). -/
theorem bfsLoop_sound (adj : String → List String) (n : String) (C : Nat) :
    ∀ (fuel : Nat) (queue acc : List String),
      (∀ x ∈ acc, ∃ k, 1 ≤ k ∧ k + fuel ≤ C ∧ pathLenB adj k n x = true) →
      (∀ x ∈ queue, ∃ k, 1 ≤ k ∧ k + fuel ≤ C ∧ pathLenB adj k n x = true) →
      ∀ x ∈ bfsLoop adj fuel queue acc,
        ∃ k, 1 ≤ k ∧ k ≤ C ∧ pathLenB adj k n x = true := by
  intro fuel
  induction fuel with
  | zero =>
    intro queue acc hacc _ x hx
    obtain ⟨k, h1, h2, h3⟩ := hacc x (by simpa [bfsLoop] using hx)
    exact ⟨k, h1, by omega, h3⟩
  | succ f ih =>
    intro queue acc hacc hq x hx
    have hweak : ∀ (l : List String),
        (∀ y ∈ l, ∃ k, 1 ≤ k ∧ k + (f + 1) ≤ C ∧ pathLenB adj k n y = true) →
        ∀ y ∈ l, ∃ k, 1 ≤ k ∧ k + f ≤ C ∧ pathLenB adj k n y = true := by
      intro l hl y hy
      obtain ⟨k, h1, h2, h3⟩ := hl y hy
      exact ⟨k, h1, by omega, h3⟩
    cases queue with
    | nil =>
      obtain ⟨k, h1, h2, h3⟩ := hacc x (by simpa [bfsLoop] using hx)
      exact ⟨k, h1, by omega, h3⟩
    | cons q rest =>
      by_cases hmem : q ∈ acc
      · have hx2 : x ∈ bfsLoop adj f rest acc := by
          simpa [bfsLoop, hmem] using hx
        exact ih rest acc (hweak acc hacc)
          (hweak rest (fun y hy => hq y (List.mem_cons_of_mem q hy))) x hx2
      · have hx2 : x ∈ bfsLoop adj f (rest ++ adj q) (acc ++ [q]) := by
          simpa [bfsLoop, hmem] using hx
        obtain ⟨kq, hk1, hk2, hk3⟩ := hq q (List.mem_cons_self q rest)
        refine ih (rest ++ adj q) (acc ++ [q]) ?_ ?_ x hx2
        · intro y hy
          rcases List.mem_append.mp hy with hy1 | hy2
          · exact hweak acc hacc y hy1
          · have hyq : y = q := by simpa using hy2
            subst hyq
            exact ⟨kq, hk1, by omega, hk3⟩
        · intro y hy
          rcases List.mem_append.mp hy with hy1 | hy2
          · exact hweak rest (fun z hz => hq z (List.mem_cons_of_mem q hz)) y hy1
          · exact ⟨kq + 1, by omega, by omega, pathLenB_snoc adj kq n q y hk3 hy2⟩

/-- C6 (amended): `getAncestors n` and `getDescendants n` never contain
`n`'s own name provided `n` does not lie on a directed cycle (no nonempty
parent-edge walk, respectively child-edge walk, from `n` back to itself
within the traversal's step budget — in particular on every acyclic
graph). When `n` lies on a cycle the BFS re-discovers `n` itself, as the
counterexample shows. -/
theorem ancestors_descendants_exclude_self (g : DAG) (n : String)
    (hup : noSelfLoopB (parentsOf g) (ancFuel g n + 1) n = true)
    (hdn : noSelfLoopB (childrenOf g) (descFuel g n + 1) n = true) :
    n ∉ g.getAncestors n ∧ n ∉ g.getDescendants n := by
  have main : ∀ (adj : String → List String) (F : Nat),
      noSelfLoopB adj (F + 1) n = true → n ∉ bfsLoop adj F (adj n) [] := by
    intro adj F hno hmem
    have hsound := bfsLoop_sound adj n (F + 1) F (adj n) []
      (by intro y hy; simp at hy)
      (by
        intro y hy
        refine ⟨1, le_refl 1, by omega, ?_⟩
        simp only [pathLenB, List.any_eq_true]
        exact ⟨y, hy, by simp⟩)
      n hmem
    obtain ⟨k, hk1, hk2, hk3⟩ := hsound
    simp only [noSelfLoopB, List.all_eq_true] at hno
    have hk := hno k (by rw [List.mem_range]; omega)
    have hkne : (k == 0) = false := by
      simp only [beq_eq_false_iff_ne, ne_eq]
      omega
    rw [hkne, Bool.false_or, Bool.not_eq_true'] at hk
    rw [hk] at hk3
    simp at hk3
  exact ⟨main (parentsOf g) (ancFuel g n) hup,
    main (childrenOf g) (descFuel g n) hdn⟩

/-- C6, counterexample to the claim as stated: on the cyclic graph a ↔ b,
the ancestors of `a` and the descendants of `a` both contain `a` itself. -/
theorem cyclic_ancestors_contain_self :
    "a" ∈ gTwoCycle.getAncestors "a" ∧ "a" ∈ gTwoCycle.getDescendants "a" := by
  exact ⟨by decide, by decide⟩

/-- C6, witness: the amended theorem applied to the middle node of the
acyclic chain crawl → filter → shot. -/
theorem ancestors_descendants_exclude_self_witness :
    "filter" ∉ gChain.getAncestors "filter" ∧
    "filter" ∉ gChain.getDescendants "filter" :=
  ancestors_descendants_exclude_self gChain "filter" (by decide) (by decide)

/-- A duplicate-free list contained in another is no longer than it. -/
theorem nodup_subset_length {l l2 : List String} (h : l.Nodup) (hs : l ⊆ l2) :
    l.length ≤ l2.length :=
  (List.subperm_of_subset h hs).length_le

/-- A successful map lookup locates an entry under the looked-up key. -/
theorem mapGet_mem : ∀ (m : List (String × DAGNode)) (k : String) (v : DAGNode),
    mapGet m k = some v → (k, v) ∈ m := by
  intro m
  induction m with
  | nil => intro k v h; simp [mapGet] at h
  | cons kv rest ih =>
    intro k v h
    unfold mapGet at h
    by_cases hk : (kv.1 == k) = true
    · rw [if_pos hk] at h
      cases h
      have : kv.1 = k := by simpa using hk
      subst this
      exact List.mem_cons_self _ _
    · rw [if_neg hk] at h
      exact List.mem_cons_of_mem _ (ih k v h)

/-- A successful lookup means the key is a key of the map. -/
theorem mapGet_some_mem_keys (m : List (String × DAGNode)) (k : String)
    (v : DAGNode) (h : mapGet m k = some v) : k ∈ mapKeys m := by
  have := mapGet_mem m k v h
  exact List.mem_map.mpr ⟨(k, v), this, rfl⟩

/-- `mapSet` can only grow the key set by the inserted key. -/
theorem mapKeys_mapSet : ∀ (m : List (String × DAGNode)) (k : String)
    (v : DAGNode) (x : String),
    x ∈ mapKeys (mapSet m k v) ↔ x ∈ mapKeys m ∨ x = k := by
  intro m
  induction m with
  | nil => intro k v x; simp [mapSet, mapKeys]
  | cons kv rest ih =>
    intro k v x
    unfold mapSet
    by_cases hk : (kv.1 == k) = true
    · rw [if_pos hk]
      have : kv.1 = k := by simpa using hk
      simp [mapKeys, this]
      tauto
    · rw [if_neg hk]
      simp only [mapKeys, List.map_cons, List.mem_cons] at ih ⊢
      rw [ih k v x]
      tauto

/-- `mapUpdate` never changes the key set. -/
theorem mapKeys_mapUpdate : ∀ (m : List (String × DAGNode)) (k : String)
    (f : DAGNode → DAGNode), mapKeys (mapUpdate m k f) = mapKeys m := by
  intro m
  induction m with
  | nil => intro k f; rfl
  | cons kv rest ih =>
    intro k f
    unfold mapUpdate
    by_cases hk : (kv.1 == k) = true
    · rw [if_pos hk]; rfl
    · rw [if_neg hk]
      simp only [mapKeys, List.map_cons]
      have hrest := ih k f
      simp only [mapKeys] at hrest
      rw [hrest]

/-- Every entry of an updated map is an original entry or an original entry
with the update applied to its value. -/
theorem mapUpdate_entries : ∀ (m : List (String × DAGNode)) (k : String)
    (f : DAGNode → DAGNode) (kv : String × DAGNode), kv ∈ mapUpdate m k f →
    kv ∈ m ∨ ∃ v0, (kv.1, v0) ∈ m ∧ kv.2 = f v0 := by
  intro m
  induction m with
  | nil => intro k f kv h; simp [mapUpdate] at h
  | cons kv0 rest ih =>
    intro k f kv h
    unfold mapUpdate at h
    by_cases hk : (kv0.1 == k) = true
    · rw [if_pos hk] at h
      rcases List.mem_cons.mp h with h1 | h2
      · right
        exact ⟨kv0.2, by simp [h1], by rw [h1]⟩
      · left
        exact List.mem_cons_of_mem _ h2
    · rw [if_neg hk] at h
      rcases List.mem_cons.mp h with h1 | h2
      · left
        simp [h1]
      · rcases ih k f kv h2 with h3 | ⟨v0, h4, h5⟩
        · exact Or.inl (List.mem_cons_of_mem _ h3)
        · exact Or.inr ⟨v0, List.mem_cons_of_mem _ h4, h5⟩

/-- Every entry of a map extended by `mapSet` is an original entry or the
inserted binding. -/
theorem mapSet_entries : ∀ (m : List (String × DAGNode)) (k : String)
    (v : DAGNode) (kv : String × DAGNode), kv ∈ mapSet m k v →
    kv ∈ m ∨ kv = (k, v) := by
  intro m
  induction m with
  | nil => intro k v kv h; simp [mapSet] at h; simp [h]
  | cons kv0 rest ih =>
    intro k v kv h
    unfold mapSet at h
    by_cases hk : (kv0.1 == k) = true
    · rw [if_pos hk] at h
      have hk1 : kv0.1 = k := by simpa using hk
      rcases List.mem_cons.mp h with h1 | h2
      · right; rw [h1, hk1]
      · left; exact List.mem_cons_of_mem _ h2
    · rw [if_neg hk] at h
      rcases List.mem_cons.mp h with h1 | h2
      · left; simp [h1]
      · rcases ih k v kv h2 with h3 | h4
        · exact Or.inl (List.mem_cons_of_mem _ h3)
        · exact Or.inr h4

/-- `addEdge` keeps the key set of the map. -/
theorem mapKeys_addEdge (m : List (String × DAGNode)) (t : PipelineTask) :
    mapKeys (addEdge m t) = mapKeys m := by
  unfold addEdge
  split
  · rw [mapKeys_mapUpdate, mapKeys_mapUpdate]
  · rfl

/-- `addEdge` preserves well-formedness: the names it pushes into children
and parents lists are keys (both endpoint lookups succeeded). -/
theorem addEdge_wf (m : List (String × DAGNode)) (t : PipelineTask)
    (hwf : WFmap m) : WFmap (addEdge m t) := by
  unfold addEdge
  split
  · next child parent hchild hparent =>
    intro kv hkv
    rw [mapKeys_mapUpdate, mapKeys_mapUpdate]
    have hname : t.name ∈ mapKeys m := mapGet_some_mem_keys m t.name child hchild
    have htrig : t.trigger ∈ mapKeys m := mapGet_some_mem_keys m t.trigger parent hparent
    rcases mapUpdate_entries _ t.name _ kv hkv with h1 | ⟨v0, h1, h2⟩
    · rcases mapUpdate_entries _ t.trigger _ kv h1 with h3 | ⟨v1, h3, h4⟩
      · exact hwf kv h3
      · obtain ⟨hn, hc, hp⟩ := hwf (kv.1, v1) h3
        refine ⟨by rw [h4]; exact hn, ?_, by rw [h4]; exact hp⟩
        intro c hc2
        rw [h4] at hc2
        simp only [List.mem_append, List.mem_singleton] at hc2
        rcases hc2 with hc3 | hc3
        · exact hc c hc3
        · rw [hc3]; exact hname
    · rcases mapUpdate_entries _ t.trigger _ (kv.1, v0) h1 with h3 | ⟨v1, h3, h4⟩
      · obtain ⟨hn, hc, hp⟩ := hwf (kv.1, v0) h3
        refine ⟨by rw [h2]; exact hn, by rw [h2]; exact hc, ?_⟩
        intro q hq
        rw [h2] at hq
        simp only [List.mem_append, List.mem_singleton] at hq
        rcases hq with hq1 | hq1
        · exact hp q hq1
        · rw [hq1]; exact htrig
      · obtain ⟨hn, hc, hp⟩ := hwf (kv.1, v1) h3
        simp only at h4
        refine ⟨by rw [h2, h4]; exact hn, ?_, ?_⟩
        · intro c hc2
          rw [h2, h4] at hc2
          simp only [List.mem_append, List.mem_singleton] at hc2
          rcases hc2 with hc3 | hc3
          · exact hc c hc3
          · rw [hc3]; exact hname
        · intro q hq
          rw [h2, h4] at hq
          simp only [List.mem_append, List.mem_singleton] at hq
          rcases hq with hq1 | hq1
          · exact hp q hq1
          · rw [hq1]; exact htrig
  · exact hwf

/-- Phase 1 invariant: every allocated node is keyed by its own name with
no edges yet, and the chosen root (if any) is a key of the map. -/
theorem buildNodes_inv : ∀ (ts : List PipelineTask)
    (m : List (String × DAGNode)) (r : Option String)
    (m2 : List (String × DAGNode)) (r2 : Option String),
    buildNodes ts m r = .ok (m2, r2) →
    (∀ kv ∈ m, kv.2.name = kv.1 ∧ kv.2.children = [] ∧ kv.2.parents = []) →
    (∀ x, r = some x → x ∈ mapKeys m) →
    (∀ kv ∈ m2, kv.2.name = kv.1 ∧ kv.2.children = [] ∧ kv.2.parents = []) ∧
    (∀ x, r2 = some x → x ∈ mapKeys m2) := by
  intro ts
  induction ts with
  | nil =>
    intro m r m2 r2 h hm hr
    unfold buildNodes at h
    cases h
    exact ⟨hm, hr⟩
  | cons t ts ih =>
    intro m r m2 r2 h hm hr
    unfold buildNodes at h
    cases hc : parseCfg t.config with
    | error e =>
      rw [hc] at h
      cases h
    | ok cfg =>
      rw [hc] at h
      dsimp only at h
      apply ih _ _ _ _ h
      · intro kv hkv
        rcases mapSet_entries m t.name _ kv hkv with h1 | h1
        · exact hm kv h1
        · rw [h1]
          exact ⟨rfl, rfl, rfl⟩
      · intro x hx
        by_cases ht : (t.trigger == rootTrigger) = true
        · rw [if_pos ht] at hx
          cases hx
          exact (mapKeys_mapSet m t.name _ t.name).mpr (Or.inr rfl)
        · rw [if_neg ht] at hx
          exact (mapKeys_mapSet m t.name _ x).mpr (Or.inl (hr x hx))

/-- The edge phase never changes the key set. -/
theorem foldl_edges_keys : ∀ (ts : List PipelineTask)
    (m : List (String × DAGNode)),
    mapKeys (ts.foldl
      (fun acc t => if t.trigger == rootTrigger then acc else addEdge acc t) m) =
      mapKeys m := by
  intro ts
  induction ts with
  | nil => intro m; rfl
  | cons t ts ih =>
    intro m
    rw [List.foldl_cons]
    by_cases ht : (t.trigger == rootTrigger) = true
    · rw [if_pos ht]
      exact ih m
    · rw [if_neg ht]
      rw [ih (addEdge m t), mapKeys_addEdge]

/-- The edge phase preserves well-formedness. -/
theorem foldl_edges_wf : ∀ (ts : List PipelineTask)
    (m : List (String × DAGNode)), WFmap m →
    WFmap (ts.foldl
      (fun acc t => if t.trigger == rootTrigger then acc else addEdge acc t) m) := by
  intro ts
  induction ts with
  | nil => intro m hm; exact hm
  | cons t ts ih =>
    intro m hm
    rw [List.foldl_cons]
    by_cases ht : (t.trigger == rootTrigger) = true
    · rw [if_pos ht]
      exact ih m hm
    · rw [if_neg ht]
      exact ih (addEdge m t) (addEdge_wf m t hm)

/-- Every graph the builder returns is well-formed, and its root reference
(if any) is a key of the node map. -/
theorem fromTasks_wf (ts : List PipelineTask) (g : DAG)
    (h : DAG.fromTasks ts = .ok g) :
    WF g ∧ (∀ r, g.root = some r → r ∈ keys g) := by
  unfold DAG.fromTasks at h
  cases hb : buildNodes ts [] none with
  | error e =>
    rw [hb] at h
    cases h
  | ok mr =>
    rw [hb] at h
    dsimp only at h
    obtain ⟨hP0, hroot⟩ := buildNodes_inv ts [] none mr.1 mr.2
      (by rw [hb]) (by simp) (by simp)
    cases h
    constructor
    · show WFmap (ts.foldl _ mr.1)
      apply foldl_edges_wf
      intro kv hkv
      obtain ⟨hn, hc, hp⟩ := hP0 kv hkv
      exact ⟨hn, by rw [hc]; intro c hx; simp at hx,
        by rw [hp]; intro q hx; simp at hx⟩
    · intro r hr
      show r ∈ keys (DAG.mk _ mr.2)
      unfold keys
      dsimp only
      rw [foldl_edges_keys]
      exact hroot r hr

/-- In an `acyclicB` graph no key admits a closed child-edge walk of
length `1..(size+1)`. -/
theorem acyclicB_no_loop (g : DAG) (hacyc : acyclicB g = true)
    (n : String) (hn : n ∈ keys g) (k : Nat) (h1 : 1 ≤ k)
    (h2 : k ≤ g.nodes.length + 1)
    (hp : pathLenB (childrenOf g) k n n = true) : False := by
  simp only [acyclicB, List.all_eq_true] at hacyc
  have hk := hacyc n hn k (by rw [List.mem_range]; omega)
  have hkne : (k == 0) = false := by
    simp only [beq_eq_false_iff_ne, ne_eq]
    omega
  rw [hkne, Bool.false_or, Bool.not_eq_true'] at hk
  rw [hk] at hp
  simp at hp

/-- From any member of an active DFS chain there is a child-edge walk down
to the node currently being visited, no longer than the chain. -/
theorem greyChain_path (g : DAG) : ∀ (grey : List String) (n : String),
    GreyChain g grey n → ∀ c ∈ grey,
    ∃ k, 1 ≤ k ∧ k ≤ grey.length ∧
      pathLenB (childrenOf g) k c n = true := by
  intro grey
  induction grey with
  | nil =>
    intro n _ c hc
    simp at hc
  | cons p ps ih =>
    intro n hch c hc
    obtain ⟨hedge, hrest⟩ := hch
    rcases List.mem_cons.mp hc with h1 | h1
    · subst h1
      refine ⟨1, le_refl 1, by simp, ?_⟩
      show (childrenOf g c).any (fun e => pathLenB (childrenOf g) 0 e n) = true
      rw [List.any_eq_true]
      exact ⟨n, hedge, by simp [pathLenB]⟩
    · obtain ⟨k, hk1, hk2, hk3⟩ := ih p hrest c h1
      exact ⟨k + 1, by omega, by simp; omega,
        pathLenB_snoc (childrenOf g) k c p n hk3 hedge⟩

/-- Splitting a snoc list at an element: either the element is the very
last one, or the split happens inside the original list. -/
theorem snoc_eq_append_cons (l : List String) (n : String) :
    ∀ (pre : List String) (x : String) (post : List String),
    l ++ [n] = pre ++ x :: post →
    (post = [] ∧ pre = l ∧ x = n) ∨
    (∃ post2, post = post2 ++ [n] ∧ l = pre ++ x :: post2) := by
  intro pre x post
  induction post using List.reverseRecOn with
  | nil =>
    intro h
    obtain ⟨h1, h2⟩ := List.append_inj' h rfl
    have hx : n = x := by simpa using h2
    exact Or.inl ⟨rfl, h1.symm, hx.symm⟩
  | append_singleton ps y _ =>
    intro h
    have h2 : l ++ [n] = (pre ++ x :: ps) ++ [y] := by
      rw [h]
      simp
    obtain ⟨h3, h4⟩ := List.append_inj' h2 rfl
    have hy : n = y := by simpa using h4
    exact Or.inr ⟨ps, by rw [hy], h3⟩

/-- In a well-formed graph, children references are keys. -/
theorem childrenOf_subset_keys (g : DAG) (hwf : WF g) (x c : String)
    (hc : c ∈ childrenOf g x) : c ∈ keys g := by
  unfold childrenOf at hc
  cases hm : mapGet g.nodes x with
  | none =>
    rw [hm] at hc
    simp at hc
  | some nd =>
    rw [hm] at hc
    obtain ⟨_, hcs, _⟩ := hwf (x, nd) (mapGet_mem g.nodes x nd hm)
    exact hcs c hc

/-- Descending into a child keeps the call chain well-formed: in an acyclic
graph the child cannot already be on the chain, since the chain plus the
new edge would close a short cycle. -/
theorem greyOk_child (g : DAG) (hwf : WF g) (hacyc : acyclicB g = true)
    (n : String) (grey : List String) (hg : GreyOk g grey n)
    (c : String) (hc : c ∈ childrenOf g n) : GreyOk g (n :: grey) c := by
  have hck : c ∈ keys g := childrenOf_subset_keys g hwf n c hc
  have hlen : grey.length ≤ (keys g).length :=
    nodup_subset_length hg.nodup hg.keysSub
  have hkeq : (keys g).length = g.nodes.length := by
    simp [keys, mapKeys]
  refine ⟨⟨hc, hg.chain⟩, ?_, ?_, ?_, hck⟩
  · intro hmem
    rcases List.mem_cons.mp hmem with h1 | h1
    · subst h1
      apply acyclicB_no_loop g hacyc c hck 1 (le_refl 1) (by omega)
      show (childrenOf g c).any (fun e => pathLenB (childrenOf g) 0 e c) = true
      rw [List.any_eq_true]
      exact ⟨c, hc, by simp [pathLenB]⟩
    · obtain ⟨k, hk1, hk2, hk3⟩ := greyChain_path g grey n hg.chain c h1
      have hcycle := pathLenB_snoc (childrenOf g) k c n c hk3 hc
      exact acyclicB_no_loop g hacyc c hck (k + 1) (by omega) (by omega) hcycle
  · exact List.nodup_cons.mpr ⟨hg.notMem, hg.nodup⟩
  · intro x hx
    rcases List.mem_cons.mp hx with h1 | h1
    · rw [h1]
      exact hg.nKey
    · exact hg.keysSub h1

/-- The child loop of the topological-sort DFS preserves the invariants,
only extends both state components, and ends with every processed child
visited. -/
theorem topoFold_spec (g : DAG) (f : Nat) (n : String) (grey : List String)
    (hIH : ∀ (c : String) (st : List String × List String),
      GreyOk g (n :: grey) c → TopoInv g (n :: grey) st →
      (keys g).length + 1 ≤ f + st.1.length →
      TopoInv g (n :: grey) (topoDfs g f c st) ∧
      (∃ dv, (topoDfs g f c st).1 = dv ++ st.1) ∧
      (∃ mid, (topoDfs g f c st).2 = st.2 ++ mid) ∧
      c ∈ (topoDfs g f c st).1)
    (hchild : ∀ c ∈ childrenOf g n, GreyOk g (n :: grey) c) :
    ∀ (cs : List String), (∀ c ∈ cs, c ∈ childrenOf g n) →
    ∀ (st : List String × List String), TopoInv g (n :: grey) st →
      (keys g).length + 1 ≤ f + st.1.length →
      TopoInv g (n :: grey) (cs.foldl (fun s c => topoDfs g f c s) st) ∧
      (∃ dv, (cs.foldl (fun s c => topoDfs g f c s) st).1 = dv ++ st.1) ∧
      (∃ mid, (cs.foldl (fun s c => topoDfs g f c s) st).2 = st.2 ++ mid) ∧
      (∀ c ∈ cs, c ∈ (cs.foldl (fun s c => topoDfs g f c s) st).1) := by
  intro cs
  induction cs with
  | nil =>
    intro _ st hinv _
    exact ⟨hinv, ⟨[], rfl⟩, ⟨[], by simp⟩, by simp⟩
  | cons c cs ih =>
    intro hsub st hinv hbud
    rw [List.foldl_cons]
    obtain ⟨hinv1, ⟨dv1, hdv1⟩, ⟨mid1, hmid1⟩, hcmem⟩ :=
      hIH c st (hchild c (hsub c (List.mem_cons_self c cs))) hinv hbud
    have hbud1 : (keys g).length + 1 ≤ f + (topoDfs g f c st).1.length := by
      rw [hdv1]
      simp only [List.length_append]
      omega
    obtain ⟨hinv2, ⟨dv2, hdv2⟩, ⟨mid2, hmid2⟩, hrest⟩ :=
      ih (fun x hx => hsub x (List.mem_cons_of_mem c hx))
        (topoDfs g f c st) hinv1 hbud1
    refine ⟨hinv2, ⟨dv2 ++ dv1, by rw [hdv2, hdv1, List.append_assoc]⟩,
      ⟨mid1 ++ mid2, by rw [hmid2, hmid1, List.append_assoc]⟩, ?_⟩
    intro x hx
    rcases List.mem_cons.mp hx with h1 | h1
    · subst h1
      rw [hdv2]
      exact List.mem_append_right dv2 hcmem
    · exact hrest x h1

/-- Correctness of the topological-sort DFS: given enough fuel (the budget
hypothesis, satisfied by the wrapper's fuel constant since visited names
are duplicate-free keys), one call preserves the invariants, only extends
the visited set and the result, visits its node, and — when the node was
fresh — appends it after everything it pushed. -/
theorem topoDfs_spec (g : DAG) (hwf : WF g) (hacyc : acyclicB g = true) :
    ∀ (fuel : Nat) (n : String) (grey : List String)
      (st : List String × List String),
      GreyOk g grey n → TopoInv g grey st →
      (keys g).length + 1 ≤ fuel + st.1.length →
      TopoInv g grey (topoDfs g fuel n st) ∧
      (∃ dv, (topoDfs g fuel n st).1 = dv ++ st.1) ∧
      (∃ mid, (topoDfs g fuel n st).2 = st.2 ++ mid) ∧
      n ∈ (topoDfs g fuel n st).1 ∧
      (n ∉ st.1 → ∃ mid, (topoDfs g fuel n st).2 = st.2 ++ mid ++ [n]) := by
  intro fuel
  induction fuel with
  | zero =>
    intro n grey st hg hinv hbud
    exfalso
    have h1 : st.1.length ≤ (keys g).length :=
      nodup_subset_length hinv.visNodup hinv.visKeys
    omega
  | succ f ih =>
    intro n grey st hg hinv hbud
    by_cases hnv : n ∈ st.1
    · have hout : topoDfs g (f + 1) n st = st := by
        show (if n ∈ st.1 then st else _) = st
        rw [if_pos hnv]
      rw [hout]
      exact ⟨hinv, ⟨[], rfl⟩, ⟨[], by simp⟩, hnv, fun h => absurd hnv h⟩
    · have hninres : n ∉ st.2 := fun h => hnv ((hinv.setEq n).mpr (Or.inl h))
      have hinv0 : TopoInv g (n :: grey) (n :: st.1, st.2) := by
        refine ⟨?_, ?_, hinv.resNodup, hinv.closed, ?_, ?_⟩
        · intro x
          constructor
          · intro hx
            rcases List.mem_cons.mp hx with h1 | h1
            · exact Or.inr (by rw [h1]; exact List.mem_cons_self n grey)
            · rcases (hinv.setEq x).mp h1 with h2 | h2
              · exact Or.inl h2
              · exact Or.inr (List.mem_cons_of_mem n h2)
          · intro hx
            rcases hx with h1 | h1
            · exact List.mem_cons_of_mem n ((hinv.setEq x).mpr (Or.inl h1))
            · rcases List.mem_cons.mp h1 with h2 | h2
              · rw [h2]
                exact List.mem_cons_self n st.1
              · exact List.mem_cons_of_mem n ((hinv.setEq x).mpr (Or.inr h2))
        · intro x hx
          rcases List.mem_cons.mp hx with h1 | h1
          · rw [h1]
            exact hninres
          · exact hinv.greyDisj x h1
        · exact List.nodup_cons.mpr ⟨hnv, hinv.visNodup⟩
        · intro x hx
          rcases List.mem_cons.mp hx with h1 | h1
          · rw [h1]
            exact hg.nKey
          · exact hinv.visKeys h1
      have hbud0 : (keys g).length + 1 ≤ f + (n :: st.1).length := by
        simp only [List.length_cons]
        omega
      obtain ⟨hinvF, ⟨dvF, hdvF⟩, ⟨midF, hmidF⟩, hallF⟩ :=
        topoFold_spec g f n grey
          (fun c st2 hgc hinv2 hbud2 =>
            let r := ih c (n :: grey) st2 hgc hinv2 hbud2
            ⟨r.1, r.2.1, r.2.2.1, r.2.2.2.1⟩)
          (fun c hc => greyOk_child g hwf hacyc n grey hg c hc)
          (childrenOf g n) (fun c hc => hc) (n :: st.1, st.2) hinv0 hbud0
      have hout : topoDfs g (f + 1) n st =
          (((childrenOf g n).foldl (fun s c => topoDfs g f c s)
              (n :: st.1, st.2)).1,
           ((childrenOf g n).foldl (fun s c => topoDfs g f c s)
              (n :: st.1, st.2)).2 ++ [n]) := by
        show (if n ∈ st.1 then st else _) = _
        rw [if_neg hnv]
      rw [hout]
      set stF := (childrenOf g n).foldl (fun s c => topoDfs g f c s)
        (n :: st.1, st.2) with hstF
      have hnF : n ∈ stF.1 := by
        rw [hdvF]
        exact List.mem_append_right dvF (List.mem_cons_self n st.1)
      have hnresF : n ∉ stF.2 := hinvF.greyDisj n (List.mem_cons_self n grey)
      refine ⟨⟨?_, ?_, ?_, ?_, hinvF.visNodup, hinvF.visKeys⟩,
        ⟨dvF ++ [n], by simp [hdvF]⟩,
        ⟨midF ++ [n], by simp [hmidF]⟩,
        hnF, fun _ => ⟨midF, by simp [hmidF]⟩⟩
      · intro x
        rw [hinvF.setEq x]
        simp only [List.mem_append, List.mem_cons, List.mem_singleton,
          List.not_mem_nil, or_false]
        tauto
      · intro x hx
        have hx2 := hinvF.greyDisj x (List.mem_cons_of_mem n hx)
        have hxn : x ≠ n := fun h => hg.notMem (h ▸ hx)
        simp only [List.mem_append, List.mem_singleton]
        intro hcon
        rcases hcon with h1 | h1
        · exact hx2 h1
        · exact hxn h1
      · rw [List.nodup_append]
        refine ⟨hinvF.resNodup, by simp, ?_⟩
        intro x hx1 hx2
        simp only [List.mem_singleton] at hx2
        subst hx2
        exact hnresF hx1
      · intro pre x post hsplit c hc
        rcases snoc_eq_append_cons stF.2 n pre x post hsplit with
          ⟨_, hpre, hx⟩ | ⟨post2, _, hin⟩
        · subst hpre
          rw [hx] at hc
          have hcmem := hallF c hc
          rcases (hinvF.setEq c).mp hcmem with h1 | h1
          · exact h1
          · exact absurd h1 ((greyOk_child g hwf hacyc n grey hg c hc).notMem)
        · exact hinvF.closed pre x post2 hin c hc

/-- In a duplicate-free list, the split at an element is unique. -/
theorem nodup_split_unique :
    ∀ (a l b c d : List String) (v : String), l.Nodup →
    l = a ++ v :: b → l = c ++ v :: d → a = c ∧ b = d := by
  intro a
  induction a with
  | nil =>
    intro l b c d v hnd h1 h2
    subst h1
    cases c with
    | nil =>
      simp only [List.nil_append, List.cons.injEq] at h2
      exact ⟨rfl, h2.2⟩
    | cons y c2 =>
      simp only [List.nil_append, List.cons_append, List.cons.injEq] at h2
      obtain ⟨hv1, hv2⟩ := h2
      exfalso
      apply (List.nodup_cons.mp hnd).1
      rw [hv2]
      simp
  | cons x a2 ih =>
    intro l b c d v hnd h1 h2
    subst h1
    cases c with
    | nil =>
      simp only [List.cons_append, List.nil_append, List.cons.injEq] at h2
      obtain ⟨hxv, hd⟩ := h2
      exfalso
      apply (List.nodup_cons.mp hnd).1
      rw [hxv]
      simp
    | cons y c2 =>
      simp only [List.cons_append, List.cons.injEq] at h2
      obtain ⟨hxy, hrest⟩ := h2
      obtain ⟨hac, hbd⟩ := ih (a2 ++ v :: b) b c2 d v
        (List.nodup_cons.mp hnd).2 rfl hrest
      exact ⟨by rw [hxy, hac], hbd⟩

/-- In a post-order-closed list, every strict descendant of a listed node
occurs in the prefix before that node. -/
theorem childrenBefore_ancestor (g : DAG) (res : List String)
    (hcb : ChildrenBefore g res) (u v : String) (h : Ancestor g u v) :
    ∀ pre post, res = pre ++ u :: post → v ∈ pre := by
  unfold Ancestor at h
  induction h using Relation.TransGen.head_induction_on with
  | base hed =>
    intro pre post hsplit
    exact hcb pre _ post hsplit v hed
  | @ih a c hed htg ihw =>
    intro pre post hsplit
    have hcpre := hcb pre _ post hsplit _ hed
    obtain ⟨s, t, hst⟩ := List.append_of_mem hcpre
    have hres2 : res = s ++ c :: (t ++ a :: post) := by
      rw [hsplit, hst]
      simp
    have hvs := ihw s (t ++ a :: post) hres2
    rw [hst]
    exact List.mem_append_left _ hvs

/-- C7: for every pipeline whose built graph is acyclic and has a root,
`topologicalSort` returns a sequence in which the root appears first and
no node appears at an earlier position than any of its ancestors: at every
split of the output, every ancestor of the split node that occurs in the
output at all occurs in the prefix. (Acyclicity is stated as the decidable
bounded check `acyclicB`, which any genuinely acyclic graph satisfies.) -/
theorem topologicalSort_root_first_ancestors_first :
    ∀ (p : Pipeline) (g : DAG) (r : String),
      DAG.fromPipeline p = .ok g →
      acyclicB g = true →
      g.root = some r →
      g.topologicalSort.head? = some r ∧
      (∀ pre v post, g.topologicalSort = pre ++ v :: post →
        ∀ u, Ancestor g u v → u ∈ g.topologicalSort → u ∈ pre) := by
  intro p g r hb hacyc hroot
  obtain ⟨hwf, hrk⟩ := fromTasks_wf p.tasks g hb
  have hrkey : r ∈ keys g := hrk r hroot
  have hts : g.topologicalSort =
      ((topoDfs g (g.nodes.length + 2) r ([], [])).2).reverse := by
    unfold DAG.topologicalSort
    rw [hroot]
  have hkeq : (keys g).length = g.nodes.length := by
    simp [keys, mapKeys]
  obtain ⟨hinvF, _, _, _, hfresh⟩ :=
    topoDfs_spec g hwf hacyc (g.nodes.length + 2) r [] ([], [])
      ⟨trivial, by simp, List.nodup_nil, by simp, hrkey⟩
      ⟨by simp, by simp, List.nodup_nil,
        by intro pre x post hsp; exact absurd hsp (by simp),
        List.nodup_nil, by simp⟩
      (by simp only [List.length_nil]; omega)
  obtain ⟨mid, hmid⟩ := hfresh (by simp)
  rw [List.nil_append] at hmid
  constructor
  · rw [hts, hmid]
    simp
  · intro pre v post hsplit u hanc humem
    have hres : (topoDfs g (g.nodes.length + 2) r ([], [])).2.reverse =
        pre ++ v :: post := by
      rw [← hts, hsplit]
    have hres2 : (topoDfs g (g.nodes.length + 2) r ([], [])).2 =
        post.reverse ++ v :: pre.reverse := by
      have := congrArg List.reverse hres
      rw [List.reverse_reverse] at this
      rw [this]
      simp
    have humem2 : u ∈ (topoDfs g (g.nodes.length + 2) r ([], [])).2 := by
      rw [hts] at humem
      exact List.mem_reverse.mp humem
    obtain ⟨s, t, hst⟩ := List.append_of_mem humem2
    have hvs : v ∈ s :=
      childrenBefore_ancestor g _ hinvF.closed u v hanc s t hst
    obtain ⟨s1, s2, hs12⟩ := List.append_of_mem hvs
    have hsplitv : (topoDfs g (g.nodes.length + 2) r ([], [])).2 =
        s1 ++ v :: (s2 ++ u :: t) := by
      rw [hst, hs12]
      simp
    obtain ⟨_, hteq⟩ := nodup_split_unique s1 _ (s2 ++ u :: t)
      post.reverse pre.reverse v hinvF.resNodup hsplitv hres2
    have : u ∈ pre.reverse := by
      rw [← hteq]
      simp
    rwa [List.mem_reverse] at this

/-- C7, witness: the theorem applied to the simple chain
crawl → filter → shot, whose graph is acyclic and rooted at "crawl". -/
theorem topologicalSort_root_first_ancestors_first_witness :
    gChain.topologicalSort.head? = some "crawl" :=
  (topologicalSort_root_first_ancestors_first pChain gChain "crawl"
    rfl (by decide) rfl).1

end SiteCrawl
